import Mathlib

/-
Verification of the path and tree algebra of the arxiv-marxdown repository:
the site tree builder and path normalizer (arxiv/marxdown/services/site.py),
the link resolver (arxiv/marxdown/render.py), and the sitemap merger, loader,
validator and serializer (arxiv/sitemap/build.py, load.py, serialize.py).

Python strings are embedded as lists of characters (Str).  The Python string
operations the code uses (strip, lstrip, rstrip, split, rsplit, join, in,
startswith, endswith) are reproduced below with their cpython semantics on
the character-list representation.
-/

set_option maxRecDepth 4000

/-- Python strings are modelled as lists of characters. -/
abbrev Str := List Char

/-- Turns a Lean string literal into its character list. -/
def strL (s : String) : Str := s.toList

/-- Python rstrip with a slash argument: drop every trailing slash. -/
def rstripSlash (s : Str) : Str := (s.reverse.dropWhile (fun c => c = '/')).reverse

/-- Python lstrip with a slash argument: drop every leading slash. -/
def lstripSlash (s : Str) : Str := s.dropWhile (fun c => c = '/')

/-- Python strip with a slash argument: drop slashes on both ends. -/
def stripSlash (s : Str) : Str := lstripSlash (rstripSlash s)

/-- Python startswith. -/
def startsWithL (pat s : Str) : Bool := pat.isPrefixOf s

/-- Python endswith. -/
def endsWithL (pat s : Str) : Bool := pat.isSuffixOf s

/-- Python split on a single character separator, keeping empty pieces. -/
def splitChar (c : Char) : Str → List Str
  | [] => [[]]
  | x :: xs =>
    if x = c then [] :: splitChar c xs
    else
      match splitChar c xs with
      | h :: t => (x :: h) :: t
      | [] => [[x]]

/-- Python join with a slash separator. -/
def joinSlash : List Str → Str
  | [] => []
  | [s] => s
  | s :: rest => s ++ '/' :: joinSlash rest

/-- Python split(sep, 1): the pieces before and after the first occurrence of
sep, or none when sep does not occur in the string. -/
def splitOnce (sep : Str) : Str → Option (Str × Str)
  | [] => none
  | c :: rest =>
    if sep.isPrefixOf (c :: rest) then some ([], (c :: rest).drop sep.length)
    else
      match splitOnce sep rest with
      | some pq => some (c :: pq.1, pq.2)
      | none => none

/-- Python substring containment test (sep in s) for a nonempty sep. -/
def containsSub (sep s : Str) : Bool := (splitOnce sep s).isSome

/-- The part of s after the first occurrence of sep; Python raises an
IndexError when sep does not occur, so the theorems below use this helper
only under hypotheses that make sep occur. -/
def afterFirst (sep s : Str) : Str :=
  match splitOnce sep s with
  | some pq => pq.2
  | none => []

/-- Python rsplit(sep, 1): the pieces before and after the last occurrence. -/
def rsplitOnce (sep : Str) (s : Str) : Option (Str × Str) :=
  match splitOnce sep.reverse s.reverse with
  | some pq => some (pq.2.reverse, pq.1.reverse)
  | none => none

/-- Python rsplit(sep, 1)[0]: everything before the last occurrence of sep,
or s itself when sep does not occur. -/
def rsplitBefore (sep s : Str) : Str :=
  match rsplitOnce sep s with
  | some pq => pq.1
  | none => s

example : splitChar '/' (strL "a/b") = [strL "a", strL "b"] := by decide
example : splitChar '/' (strL "") = [strL ""] := by decide
example : rsplitBefore (strL ".j2") (strL "index.j2") = strL "index" := by decide
example : rsplitOnce (strL "/") (strL "/a/b") = some (strL "/a", strL "b") := by decide
example : stripSlash (strL "/foo/") = strL "foo" := by decide
example : afterFirst (strL "/p") (strL "/p/a/b") = strL "/a/b" := by decide

/-- A list is always a Boolean prefix of itself followed by anything. -/
theorem isPrefixOf_append_self (l r : List Char) : l.isPrefixOf (l ++ r) = true := by
  induction l with
  | nil => simp [List.isPrefixOf]
  | cons c cs ih => simp [List.isPrefixOf, ih]

/-- Splitting at the first occurrence of a nonempty sep that sits at the very
front of the string yields the empty head and the rest. -/
theorem splitOnce_append_self (sep rest : Str) (h : sep ≠ []) :
    splitOnce sep (sep ++ rest) = some ([], rest) := by
  match sep with
  | [] => exact absurd rfl h
  | c :: cs =>
    show splitOnce (c :: cs) (c :: (cs ++ rest)) = some ([], rest)
    rw [splitOnce]
    have hp : (c :: cs).isPrefixOf (c :: cs ++ rest) = true :=
      isPrefixOf_append_self (c :: cs) rest
    simp only [List.cons_append] at hp
    rw [if_pos hp]
    simp [List.drop_left]

/-- The suffix after the first occurrence, when that occurrence is at the
front. -/
theorem afterFirst_append_self (sep rest : Str) (h : sep ≠ []) :
    afterFirst sep (sep ++ rest) = rest := by
  simp [afterFirst, splitOnce_append_self sep rest h]

/-- Splitting on a single character that does not occur in the head part
finds exactly that character occurrence. -/
theorem splitOnce_char (c : Char) (a b : Str) (h : c ∉ a) :
    splitOnce [c] (a ++ c :: b) = some (a, b) := by
  induction a with
  | nil =>
    rw [List.nil_append, splitOnce]
    have hp : [c].isPrefixOf (c :: b) = true := by simp [List.isPrefixOf]
    rw [if_pos hp]
    simp
  | cons x xs ih =>
    have hx : x ≠ c := fun hxc => h (by simp [hxc])
    have hxs : c ∉ xs := fun hm => h (List.mem_cons_of_mem _ hm)
    rw [List.cons_append, splitOnce]
    have hp : [c].isPrefixOf (x :: (xs ++ c :: b)) = false := by
      simp [List.isPrefixOf, hx.symm]
    rw [hp]
    simp [ih hxs]

/-- After stripping leading slashes nothing can start with a slash. -/
theorem startsWith_slash_lstrip (s : Str) :
    startsWithL (strL "/") (lstripSlash s) = false := by
  induction s with
  | nil => rfl
  | cons c cs ih =>
    by_cases hc : c = '/'
    · simpa [lstripSlash, hc] using ih
    · simp [lstripSlash, List.dropWhile_cons, hc, startsWithL, strL, List.isPrefixOf,
        Ne.symm hc]

/-- Appending a nonempty slash-free tail is invariant under rstrip. -/
theorem rstripSlash_append_no_slash (s d : Str) (hne : d ≠ []) (hd : '/' ∉ d) :
    rstripSlash (s ++ d) = s ++ d := by
  have hrev : (s ++ d).reverse = d.reverse ++ s.reverse := by simp
  rw [rstripSlash, hrev]
  match hds : d.reverse with
  | [] => exact absurd (by simpa using congrArg List.reverse hds) hne
  | y :: ys =>
    have hy : y ∈ d := by
      have : y ∈ d.reverse := by rw [hds]; exact List.mem_cons_self y ys
      simpa using this
    have hyne : y ≠ '/' := fun h => hd (h ▸ hy)
    have hd2 : d = ys.reverse ++ [y] := by
      have := congrArg List.reverse hds
      simpa using this
    simp [List.dropWhile_cons, hyne, hd2]

/-! Embedding of arxiv/marxdown/services/site.py: the path normalizer walk
and the site tree builder get_tree. -/

/-- The response sub-mapping of page metadata: an http status (absent means
200) and an optional deleted flag. -/
structure RespMeta where
  deleted : Option Bool
  status : Option Int
deriving DecidableEq

/-- Page metadata as consumed by get_tree: title and modified are present for
every inserted page, response is optional. -/
structure PageMeta where
  title : Str
  modified : Str
  response : Option RespMeta
deriving DecidableEq

/-- The skip test at the top of the page loop in get_tree: a page is skipped
when its response mapping has a truthy deleted value, or otherwise a status
greater than 299. -/
def skipPage (m : PageMeta) : Bool :=
  match m.response with
  | none => false
  | some r =>
    if r.deleted.getD false then true
    else if r.status.getD 200 > 299 then true
    else false

/-- Node of the site tree built by get_tree: a python dict with keys path,
title, modified and children.  Placeholder nodes lack title and modified. -/
inductive SNode where
  | mk (path : Str) (title : Option Str) (modified : Option Str)
       (children : List (Str × SNode))

def SNode.path : SNode → Str
  | .mk p _ _ _ => p

def SNode.titleOf : SNode → Option Str
  | .mk _ t _ _ => t

def SNode.modifiedOf : SNode → Option Str
  | .mk _ _ m _ => m

def SNode.children : SNode → List (Str × SNode)
  | .mk _ _ _ cs => cs

/-- Python dict lookup on an insertion-ordered association list. -/
def alookup {α : Type} (k : Str) : List (Str × α) → Option α
  | [] => none
  | kv :: rest => if kv.1 = k then some kv.2 else alookup k rest

/-- Python dict assignment: replace the value of an existing key in place, or
append a fresh key at the end. -/
def aset {α : Type} (k : Str) (v : α) : List (Str × α) → List (Str × α)
  | [] => [(k, v)]
  | kv :: rest => if kv.1 = k then (k, v) :: rest else kv :: aset k v rest

/-- One step of the subpath accumulation inside get_subpaths: extend the
running subpath by one part and drop a trailing slash on results longer than
one character. -/
def subpathStep (acc part : Str) : Str :=
  let sp := rstripSlash acc ++ '/' :: stripSlash part
  if sp.length > 1 ∧ endsWithL (strL "/") sp then sp.dropLast else sp

/-- The successive subpaths produced from a running value and the remaining
parts, in collection order. -/
def subpathsAux (cur : Str) : List Str → List Str
  | [] => []
  | part :: rest =>
    subpathStep cur part :: subpathsAux (subpathStep cur part) rest

/-- Stable insertion into a list sorted by length. -/
def insertByLen (x : Str) : List Str → List Str
  | [] => [x]
  | y :: ys => if y.length < x.length then y :: insertByLen x ys else x :: y :: ys

/-- Stable sort by length, as the python sorted with a len key. -/
def sortByLen : List Str → List Str
  | [] => []
  | x :: xs => insertByLen x (sortByLen xs)

/-- Embedding of the helper get_subpaths inside site.get_tree.  The successive
subpaths have non-decreasing lengths and repeats are equal strings, so the
python set followed by sorting on length is deduplication followed by a
stable sort on length. -/
def subpathsOf (pfx parent : Str) : List Str :=
  sortByLen (subpathsAux []
    (pfx :: splitChar '/' (stripSlash (afterFirst pfx parent)))).dedup

/-- The final insertion step of the page loop in get_tree: update the current
node in place when the pattern is its own path, update an existing child in
place, or insert a fresh child keyed by the pattern. -/
def atFinal (node : SNode) (pat : Str) (m : PageMeta) : SNode :=
  match node with
  | .mk p t md cs =>
    if pat = p then .mk p (some m.title) (some m.modified) cs
    else
      match alookup pat cs with
      | some c =>
        .mk p t md (aset pat (SNode.mk pat (some m.title) (some m.modified) c.children) cs)
      | none =>
        .mk p t md (aset pat (SNode.mk pat (some m.title) (some m.modified) []) cs)

/-- The walk from the current node along the subpaths, creating placeholder
children on demand, followed by the final insertion. -/
def insertAt (node : SNode) (sps : List Str) (pat : Str) (m : PageMeta) : SNode :=
  match sps with
  | [] => atFinal node pat m
  | sp :: rest =>
    match node with
    | .mk p t md cs =>
      if sp = p then insertAt (.mk p t md cs) rest pat m
      else
        let child := (alookup sp cs).getD (SNode.mk sp none none [])
        .mk p t md (aset sp (insertAt child rest pat m) cs)

/-- One iteration of the page loop in get_tree: skip pages with a deleted or
redirecting response, insert every other page along its subpaths. -/
def pageStep (pfx : Str) (root : SNode) (pg : Str × Str × PageMeta) : SNode :=
  if skipPage pg.2.2 then root
  else insertAt root (subpathsOf pfx pg.1) pg.2.1 pg.2.2

/-- Embedding of site.get_tree: normalize the prefix, seed the root with the
human name, then fold the walked pages into the tree.  Returns the top level
key of the tree dict together with the root node. -/
def getTree (pfx0 human : Str) (pages : List (Str × Str × PageMeta)) : Str × SNode :=
  let pfx := if startsWithL (strL "/") pfx0 then pfx0 else '/' :: pfx0
  (pfx, pages.foldl (pageStep pfx) (SNode.mk pfx (some human) none []))

/-- Embedding of the per-file computation of site.walk: from the url prefix,
the pages directory, the directory being walked and a file name, the yielded
parent, url pattern and metadata path.  The rsplit fallback branch models the
python unpacking error and is unreachable because the operand starts with a
slash. -/
def walkEntry (pfx pagesPath parentDir fname : Str) : Str × Str × Str :=
  let child0 := rsplitBefore (strL ".j2") fname
  let relParent := afterFirst (rstripSlash pagesPath) parentDir
  let tp0 := if startsWithL (strL "/") relParent then relParent else '/' :: relParent
  let pc := if child0 = strL "index"
            then match rsplitOnce (strL "/") tp0 with
                 | some pq => pq
                 | none => ([], [])
            else (tp0, child0)
  let tp1 := if startsWithL (strL "/") pc.1 then pc.1 else '/' :: pc.1
  let pattern := if tp1 = strL "/"
                 then rstripSlash pfx ++ '/' :: pc.2
                 else rstripSlash pfx ++ tp1 ++ '/' :: pc.2
  let mpath := lstripSlash (relParent ++ '/' :: child0)
  (pfx ++ tp1, rstripSlash pattern, mpath)

example : walkEntry (strL "/") (strL "/p") (strL "/p/a/b") (strL "index.j2")
    = (strL "//a", strL "/a/b", strL "a/b/index") := by decide

example : walkEntry (strL "/") (strL "/p") (strL "/p") (strL "foo.j2")
    = (strL "//", strL "/foo", strL "foo") := by decide

example : walkEntry (strL "/") (strL "/p") (strL "/p") (strL "index.j2")
    = (strL "//", strL "", strL "index") := by decide

example : subpathsOf (strL "/") (strL "//") = [strL "/"] := by decide

example : subpathsOf (strL "/") (strL "//a") = [strL "/", strL "/a"] := by decide

/-! Claim C2: path normalization of index pages by walk. -/

/-- Appending a final segment to a nonempty segment list under a slash join. -/
theorem joinSlash_append_single (ds : List Str) (d : Str) (h : ds ≠ []) :
    joinSlash (ds ++ [d]) = joinSlash ds ++ '/' :: d := by
  induction ds with
  | nil => exact absurd rfl h
  | cons s rest ih =>
    match rest with
    | [] => simp [joinSlash]
    | t :: ts =>
      have := ih (by simp)
      simp only [List.cons_append, joinSlash] at this ⊢
      simp [this]

/-- The slash join of nonempty slash-free segments starts with a character
that is not a slash. -/
theorem joinSlash_head (ds : List Str) (h : ds ≠ [])
    (hs : ∀ s ∈ ds, s ≠ [] ∧ '/' ∉ s) :
    ∃ c cs, joinSlash ds = c :: cs ∧ c ≠ '/' := by
  match ds with
  | [] => exact absurd rfl h
  | s :: rest =>
    have hsne : s ≠ [] := (hs s (List.mem_cons_self s rest)).1
    have hss : '/' ∉ s := (hs s (List.mem_cons_self s rest)).2
    match s with
    | [] => exact absurd rfl hsne
    | c :: cs =>
      have hc : c ≠ '/' := fun hcc => hss (by simp [hcc])
      match rest with
      | [] => exact ⟨c, cs, by simp [joinSlash], hc⟩
      | t :: ts => exact ⟨c, cs ++ '/' :: joinSlash (t :: ts), by simp [joinSlash], hc⟩

/-- Last-occurrence split on a slash when the tail after the last slash is
slash-free. -/
theorem rsplitOnce_last (a d : Str) (hd : '/' ∉ d) :
    rsplitOnce (strL "/") (a ++ '/' :: d) = some (a, d) := by
  have hrev : (a ++ '/' :: d).reverse = d.reverse ++ '/' :: a.reverse := by simp
  have hdr : '/' ∉ d.reverse := by simpa using hd
  have h1 : splitOnce ['/'] (d.reverse ++ '/' :: a.reverse)
      = some (d.reverse, a.reverse) := splitOnce_char '/' d.reverse a.reverse hdr
  have hsep : (strL "/").reverse = ['/'] := by decide
  rw [rsplitOnce, hsep, hrev, h1]
  simp

/-- Strings starting with a slash satisfy the python startswith test. -/
theorem startsWith_slash_cons (s : Str) :
    startsWithL (strL "/") ('/' :: s) = true := by
  simp [startsWithL, strL, List.isPrefixOf]

/-- Claim C2, amended: for every page path consisting of directory segments
followed by a final index file, walk yields a url pattern equal to the
rstripped url prefix, a slash and the page path with the trailing index
segment removed (so the pattern carries no index segment), while the parent
output is the prefix concatenated with the path one further directory level
up (a bare slash when no directory remains) - not the path with only the
index segment removed, as the original claim stated. -/
theorem walkEntry_index (pfx pagesPath : Str) (ds : List Str) (d : Str)
    (hpp : rstripSlash pagesPath ≠ [])
    (hd : d ≠ []) (hd2 : '/' ∉ d)
    (hds : ∀ s ∈ ds, s ≠ [] ∧ '/' ∉ s) :
    walkEntry pfx pagesPath (rstripSlash pagesPath ++ '/' :: joinSlash (ds ++ [d]))
        (strL "index.j2")
      = (pfx ++ (if ds = [] then strL "/" else '/' :: joinSlash ds),
         rstripSlash pfx ++ '/' :: joinSlash (ds ++ [d]),
         joinSlash (ds ++ [d]) ++ strL "/index") := by
  have hchild : rsplitBefore (strL ".j2") (strL "index.j2") = strL "index" := by decide
  have hrel : afterFirst (rstripSlash pagesPath)
      (rstripSlash pagesPath ++ '/' :: joinSlash (ds ++ [d]))
      = '/' :: joinSlash (ds ++ [d]) :=
    afterFirst_append_self _ _ hpp
  have hjoin_ne : joinSlash (ds ++ [d]) ≠ [] := by
    obtain ⟨c, cs, hcs, -⟩ := joinSlash_head (ds ++ [d]) (by simp)
      (by intro s hs2
          rcases List.mem_append.mp hs2 with h1 | h1
          · exact hds s h1
          · simp at h1; subst h1; exact ⟨hd, hd2⟩)
    simp [hcs]
  obtain ⟨c0, cs0, hj0, hc0⟩ := joinSlash_head (ds ++ [d]) (by simp)
      (by intro s hs2
          rcases List.mem_append.mp hs2 with h1 | h1
          · exact hds s h1
          · simp at h1; subst h1; exact ⟨hd, hd2⟩)
  -- the rsplit of the parent at its last slash
  have hrsplit : rsplitOnce (strL "/") ('/' :: joinSlash (ds ++ [d]))
      = some ((if ds = [] then [] else '/' :: joinSlash ds), d) := by
    match hcase : ds with
    | [] => simpa using rsplitOnce_last [] d hd2
    | s :: rest =>
      have hj := joinSlash_append_single (s :: rest) d (by simp)
      rw [hj]
      have : '/' :: (joinSlash (s :: rest) ++ '/' :: d)
          = ('/' :: joinSlash (s :: rest)) ++ '/' :: d := by simp
      rw [this]
      simpa using rsplitOnce_last ('/' :: joinSlash (s :: rest)) d hd2
  -- discharge the two shapes of the directory part
  have hidx : strL "/index" = '/' :: strL "index" := by decide
  match hcase : ds with
  | [] =>
    have hj1 : joinSlash ([] ++ [d]) = d := by simp [joinSlash]
    rw [hj1] at hrel hrsplit ⊢
    obtain ⟨c1, cs1, hd1, hc1⟩ : ∃ c cs, d = c :: cs ∧ c ≠ '/' := by
      match hdm : d with
      | [] => exact absurd rfl hd
      | c :: cs =>
        exact ⟨c, cs, rfl, fun hcc => hd2 (by simp [hdm, hcc])⟩
    have hstrip : rstripSlash (rstripSlash pfx ++ '/' :: d)
        = rstripSlash pfx ++ '/' :: d := by
      have hsh : rstripSlash pfx ++ '/' :: d = (rstripSlash pfx ++ ['/']) ++ d := by
        simp
      rw [hsh, rstripSlash_append_no_slash _ d hd hd2]
    have hsw0 : startsWithL (strL "/") ([] : Str) = false := by decide
    have hl1 : (['/'] : Str) = strL "/" := by decide
    simp only [walkEntry, hchild, hrel, hrsplit, startsWith_slash_cons, hsw0,
      eq_self_iff_true, if_true, Bool.false_eq_true, if_false, hl1, hstrip,
      Prod.mk.injEq]
    refine ⟨trivial, trivial, ?_⟩
    rw [hd1, hidx]
    simp [lstripSlash, List.dropWhile_cons, hc1]
  | s :: rest =>
    have hne : (s :: rest : List Str) ≠ [] := by simp
    have hj2 : joinSlash ((s :: rest) ++ [d]) = joinSlash (s :: rest) ++ '/' :: d :=
      joinSlash_append_single (s :: rest) d hne
    obtain ⟨c1, cs1, hj3, hc1⟩ := joinSlash_head (s :: rest) hne
      (fun t ht => hds t ht)
    have hjd_ne : joinSlash (s :: rest) ≠ [] := by simp [hj3]
    have htp1ne : (('/' :: joinSlash (s :: rest)) = strL "/") = False := by
      simp only [eq_iff_iff, iff_false]
      intro hcontra
      have : joinSlash (s :: rest) = [] := by
        have := congrArg List.tail hcontra
        simpa [strL] using this
      exact hjd_ne this
    have hstrip : rstripSlash (rstripSlash pfx ++ ('/' :: joinSlash (s :: rest)) ++ '/' :: d)
        = rstripSlash pfx ++ '/' :: joinSlash ((s :: rest) ++ [d]) := by
      have hsh : rstripSlash pfx ++ ('/' :: joinSlash (s :: rest)) ++ '/' :: d
          = (rstripSlash pfx ++ ('/' :: joinSlash (s :: rest)) ++ ['/']) ++ d := by
        simp
      rw [hsh, rstripSlash_append_no_slash _ d hd hd2, hj2]
      simp
    obtain ⟨c2, cs2, hj4, hc2⟩ := joinSlash_head ((s :: rest) ++ [d]) (by simp)
      (by intro t ht2
          rcases List.mem_append.mp ht2 with h1 | h1
          · exact hds t h1
          · simp at h1; subst h1; exact ⟨hd, hd2⟩)
    have hlne : ((s :: rest : List Str) = []) = False := by simp
    simp only [walkEntry, hchild, hrel, hrsplit, startsWith_slash_cons, hlne,
      eq_self_iff_true, if_true, htp1ne, if_false, Prod.mk.injEq]
    refine ⟨trivial, ?_, ?_⟩
    · exact hstrip
    · rw [hidx, hj4]
      simp [lstripSlash, List.dropWhile_cons, hc2]

/-- Claim C2, counterexample: the page at metadata path a/b/index (prefix /,
pages directory /p) yields parent output //a together with pattern /a/b, and
that parent differs from the prefix-prepended a/b that the claim asserts; it
is the pattern, not the parent, that equals the path minus its index
segment. -/
theorem walkEntry_index_counterexample :
    walkEntry (strL "/") (strL "/p") (strL "/p/a/b") (strL "index.j2")
      = (strL "//a", strL "/a/b", strL "a/b/index")
    ∧ (walkEntry (strL "/") (strL "/p") (strL "/p/a/b") (strL "index.j2")).1
        ≠ strL "/" ++ strL "a/b"
    ∧ (walkEntry (strL "/") (strL "/p") (strL "/p/a/b") (strL "index.j2")).1
        ≠ strL "/a/b" := by decide

/-- Witness for the amended claim C2 at the concrete page path a/b/index. -/
theorem walkEntry_index_witness :
    walkEntry (strL "/") (strL "/p")
        (rstripSlash (strL "/p") ++ '/' :: joinSlash ([strL "a"] ++ [strL "b"]))
        (strL "index.j2")
      = (strL "/" ++ (if ([strL "a"] : List Str) = [] then strL "/"
                      else '/' :: joinSlash [strL "a"]),
         rstripSlash (strL "/") ++ '/' :: joinSlash ([strL "a"] ++ [strL "b"]),
         joinSlash ([strL "a"] ++ [strL "b"]) ++ strL "/index") :=
  walkEntry_index (strL "/") (strL "/p") [strL "a"] (strL "b")
    (by decide) (by decide) (by decide) (by decide)

/-! Claim C1: exclusion of deleted and redirected pages from the tree. -/

mutual
/-- Every path value reachable in a node: its own and those of all of its
descendants. -/
def SNode.allPaths : SNode → List Str
  | .mk p _ _ cs => p :: childPaths cs
/-- The path values reachable under a children list. -/
def childPaths : List (Str × SNode) → List Str
  | [] => []
  | kv :: rest => kv.2.allPaths ++ childPaths rest
end

/-- A path has a node in the tree when some reachable node carries it. -/
def treeHasPath (n : SNode) (p : Str) : Prop := p ∈ n.allPaths

instance (n : SNode) (p : Str) : Decidable (treeHasPath n p) := by
  unfold treeHasPath; infer_instance

mutual
/-- Children are keyed by the path value of the child node, recursively; the
builder maintains this invariant at every step. -/
def SNode.keyInv : SNode → Prop
  | .mk _ _ _ cs => kidsKeyInv cs
/-- Key invariant for a children list. -/
def kidsKeyInv : List (Str × SNode) → Prop
  | [] => True
  | kv :: rest => kv.2.path = kv.1 ∧ kv.2.keyInv ∧ kidsKeyInv rest
end

theorem allPaths_head (p : Str) (t m : Option Str) (cs : List (Str × SNode)) :
    (SNode.mk p t m cs).allPaths = p :: childPaths cs := by
  rw [SNode.allPaths]

theorem mem_allPaths_self (n : SNode) : n.path ∈ n.allPaths := by
  match n with
  | .mk p t m cs => rw [allPaths_head]; exact List.mem_cons_self _ _

/-- Setting an absent key appends it. -/
theorem aset_of_lookup_none {α : Type} (k : Str) (v : α) (cs : List (Str × α))
    (h : alookup k cs = none) : aset k v cs = cs ++ [(k, v)] := by
  induction cs with
  | nil => rfl
  | cons kv rest ih =>
    rw [alookup] at h
    by_cases hk : kv.1 = k
    · rw [if_pos hk] at h; exact absurd h (by simp)
    · rw [if_neg hk] at h
      rw [aset, if_neg hk, ih h]
      simp

theorem childPaths_append (a b : List (Str × SNode)) :
    childPaths (a ++ b) = childPaths a ++ childPaths b := by
  induction a with
  | nil => simp [childPaths]
  | cons kv rest ih => simp [childPaths, ih]

/-- Everything under an updated children list was either already there or
comes from the new value. -/
theorem childPaths_aset_sub (k : Str) (v : SNode) (cs : List (Str × SNode)) :
    ∀ x ∈ childPaths (aset k v cs), x ∈ childPaths cs ∨ x ∈ v.allPaths := by
  induction cs with
  | nil =>
    intro x hx
    rw [aset] at hx
    simp [childPaths] at hx
    exact Or.inr hx
  | cons kv rest ih =>
    intro x hx
    by_cases hk : kv.1 = k
    · rw [aset, if_pos hk] at hx
      rcases List.mem_append.mp (by simpa [childPaths] using hx) with h | h
      · exact Or.inr h
      · exact Or.inl (by simp [childPaths]; exact Or.inr h)
    · rw [aset, if_neg hk] at hx
      rcases List.mem_append.mp (by simpa [childPaths] using hx) with h | h
      · exact Or.inl (by simp [childPaths]; exact Or.inl h)
      · rcases ih x h with h2 | h2
        · exact Or.inl (by simp [childPaths]; exact Or.inr h2)
        · exact Or.inr h2

/-- The new value of an update is reachable under the updated list. -/
theorem mem_childPaths_aset (k : Str) (v : SNode) (cs : List (Str × SNode)) :
    ∀ x ∈ v.allPaths, x ∈ childPaths (aset k v cs) := by
  induction cs with
  | nil => intro x hx; simpa [aset, childPaths] using hx
  | cons kv rest ih =>
    intro x hx
    by_cases hk : kv.1 = k
    · rw [aset, if_pos hk]; simp [childPaths]; exact Or.inl hx
    · rw [aset, if_neg hk]; simp [childPaths]; exact Or.inr (ih x hx)

/-- Everything under a looked-up child is reachable under the list. -/
theorem alookup_allPaths_sub (k : Str) (c : SNode) (cs : List (Str × SNode))
    (h : alookup k cs = some c) : ∀ x ∈ c.allPaths, x ∈ childPaths cs := by
  induction cs with
  | nil => intro x hx; simp [alookup] at h
  | cons kv rest ih =>
    intro x hx
    rw [alookup] at h
    by_cases hk : kv.1 = k
    · rw [if_pos hk] at h
      have : kv.2 = c := by injection h
      simp [childPaths, this]
      exact Or.inl hx
    · rw [if_neg hk] at h
      simp [childPaths]
      exact Or.inr (ih h x hx)

/-- Updating a key whose current subtree only reaches paths also reachable
from the new value keeps every previously reachable path reachable. -/
theorem childPaths_aset_sup (k : Str) (v c : SNode) (cs : List (Str × SNode))
    (h : alookup k cs = some c) (hsub : ∀ x ∈ c.allPaths, x ∈ v.allPaths) :
    ∀ x ∈ childPaths cs, x ∈ childPaths (aset k v cs) := by
  induction cs with
  | nil => intro x hx; simp [childPaths] at hx
  | cons kv rest ih =>
    intro x hx
    rw [alookup] at h
    by_cases hk : kv.1 = k
    · rw [if_pos hk] at h
      have hc : kv.2 = c := by injection h
      rw [aset, if_pos hk]
      rcases List.mem_append.mp (by simpa [childPaths] using hx) with h2 | h2
      · simp [childPaths]
        exact Or.inl (hsub x (hc ▸ h2))
      · simp [childPaths]
        exact Or.inr h2
    · rw [if_neg hk] at h
      rw [aset, if_neg hk]
      rcases List.mem_append.mp (by simpa [childPaths] using hx) with h2 | h2
      · simp [childPaths]; exact Or.inl h2
      · simp [childPaths]; exact Or.inr (ih h x h2)

/-- Updating an absent key keeps every previously reachable path. -/
theorem childPaths_aset_sup_none (k : Str) (v : SNode) (cs : List (Str × SNode))
    (h : alookup k cs = none) :
    ∀ x ∈ childPaths cs, x ∈ childPaths (aset k v cs) := by
  intro x hx
  rw [aset_of_lookup_none k v cs h, childPaths_append]
  exact List.mem_append.mpr (Or.inl hx)

theorem keyInv_mk (p : Str) (t m : Option Str) (cs : List (Str × SNode)) :
    (SNode.mk p t m cs).keyInv = kidsKeyInv cs := by
  rw [SNode.keyInv]

/-- Updating a children list with a correctly keyed, internally sound value
preserves the key invariant. -/
theorem kidsKeyInv_aset (k : Str) (v : SNode) (cs : List (Str × SNode))
    (h : kidsKeyInv cs) (hv : v.path = k) (hv2 : v.keyInv) :
    kidsKeyInv (aset k v cs) := by
  induction cs with
  | nil => exact ⟨hv, hv2, trivial⟩
  | cons kv rest ih =>
    rw [kidsKeyInv] at h
    by_cases hk : kv.1 = k
    · rw [aset, if_pos hk]
      exact ⟨hk ▸ hv, hv2, h.2.2⟩
    · rw [aset, if_neg hk]
      exact ⟨h.1, h.2.1, ih h.2.2⟩

/-- A successful lookup in an invariant children list returns a node keyed by
its own path and itself invariant. -/
theorem alookup_keyInv (k : Str) (c : SNode) (cs : List (Str × SNode))
    (h : kidsKeyInv cs) (hl : alookup k cs = some c) :
    c.path = k ∧ c.keyInv := by
  induction cs with
  | nil => simp [alookup] at hl
  | cons kv rest ih =>
    rw [kidsKeyInv] at h
    rw [alookup] at hl
    by_cases hk : kv.1 = k
    · rw [if_pos hk] at hl
      have : kv.2 = c := by injection hl
      exact ⟨hk ▸ this ▸ h.1, this ▸ h.2.1⟩
    · rw [if_neg hk] at hl
      exact ih h.2.2 hl

theorem atFinal_path (n : SNode) (pat : Str) (m : PageMeta) :
    (atFinal n pat m).path = n.path := by
  match n with
  | .mk p t md cs =>
    rw [atFinal]
    by_cases hp : pat = p
    · rw [if_pos hp]; rfl
    · rw [if_neg hp]
      match alookup pat cs with
      | some c => rfl
      | none => rfl

theorem atFinal_keyInv (n : SNode) (pat : Str) (m : PageMeta)
    (h : n.keyInv) : (atFinal n pat m).keyInv := by
  match n with
  | .mk p t md cs =>
    rw [keyInv_mk] at h
    rw [atFinal]
    by_cases hp : pat = p
    · rw [if_pos hp, keyInv_mk]; exact h
    · rw [if_neg hp]
      match hl : alookup pat cs with
      | some c =>
        obtain ⟨hc1, hc2⟩ := alookup_keyInv pat c cs h hl
        rw [keyInv_mk]
        refine kidsKeyInv_aset pat _ cs h rfl ?_
        rw [keyInv_mk]
        match c, hc2 with
        | .mk cp ct cm ccs, hc2 => simpa [keyInv_mk, SNode.children] using hc2
      | none =>
        rw [keyInv_mk]
        exact kidsKeyInv_aset pat _ cs h rfl (by rw [keyInv_mk]; trivial)

theorem atFinal_mem (n : SNode) (pat : Str) (m : PageMeta) :
    pat ∈ (atFinal n pat m).allPaths := by
  match n with
  | .mk p t md cs =>
    rw [atFinal]
    by_cases hp : pat = p
    · rw [if_pos hp, allPaths_head]
      exact hp ▸ List.mem_cons_self _ _
    · rw [if_neg hp]
      match hl : alookup pat cs with
      | some c =>
        rw [allPaths_head]
        refine List.mem_cons_of_mem _ ?_
        exact mem_childPaths_aset pat _ cs pat (mem_allPaths_self _)
      | none =>
        rw [allPaths_head]
        refine List.mem_cons_of_mem _ ?_
        exact mem_childPaths_aset pat _ cs pat (mem_allPaths_self _)

theorem atFinal_sup (n : SNode) (pat : Str) (m : PageMeta) (h : n.keyInv) :
    ∀ x ∈ n.allPaths, x ∈ (atFinal n pat m).allPaths := by
  match n with
  | .mk p t md cs =>
    rw [keyInv_mk] at h
    intro x hx
    rw [allPaths_head] at hx
    rw [atFinal]
    by_cases hp : pat = p
    · rw [if_pos hp, allPaths_head]; exact hx
    · rw [if_neg hp]
      rcases List.mem_cons.mp hx with hx1 | hx2
      · match hl : alookup pat cs with
        | some c => rw [allPaths_head]; exact hx1 ▸ List.mem_cons_self _ _
        | none => rw [allPaths_head]; exact hx1 ▸ List.mem_cons_self _ _
      · match hl : alookup pat cs with
        | some c =>
          obtain ⟨hc1, -⟩ := alookup_keyInv pat c cs h hl
          rw [allPaths_head]
          refine List.mem_cons_of_mem _ ?_
          refine childPaths_aset_sup pat _ c cs hl ?_ x hx2
          intro y hy
          match c, hc1 with
          | .mk cp ct cm ccs, hc1 =>
            have hcp : cp = pat := by simpa [SNode.path] using hc1
            rw [allPaths_head] at hy
            rw [allPaths_head]
            simp only [SNode.children]
            exact hcp ▸ hy
        | none =>
          rw [allPaths_head]
          exact List.mem_cons_of_mem _ (childPaths_aset_sup_none pat _ cs hl x hx2)

theorem atFinal_sub (n : SNode) (pat : Str) (m : PageMeta) :
    ∀ x ∈ (atFinal n pat m).allPaths, x ∈ n.allPaths ∨ x = pat := by
  match n with
  | .mk p t md cs =>
    intro x hx
    rw [atFinal] at hx
    by_cases hp : pat = p
    · rw [if_pos hp, allPaths_head] at hx
      exact Or.inl (by rw [allPaths_head]; exact hx)
    · rw [if_neg hp] at hx
      match hl : alookup pat cs with
      | some c =>
        rw [hl] at hx
        rw [allPaths_head] at hx
        rcases List.mem_cons.mp hx with hx1 | hx2
        · exact Or.inl (by rw [allPaths_head]; exact hx1 ▸ List.mem_cons_self _ _)
        · rcases childPaths_aset_sub pat _ cs x hx2 with h2 | h2
          · exact Or.inl (by rw [allPaths_head]; exact List.mem_cons_of_mem _ h2)
          · rw [allPaths_head] at h2
            rcases List.mem_cons.mp h2 with h3 | h3
            · exact Or.inr h3
            · refine Or.inl ?_
              rw [allPaths_head]
              refine List.mem_cons_of_mem _ ?_
              refine alookup_allPaths_sub pat c cs hl x ?_
              match c with
              | .mk cp ct cm ccs =>
                rw [allPaths_head]
                exact List.mem_cons_of_mem _ (by simpa [SNode.children] using h3)
      | none =>
        rw [hl] at hx
        rw [allPaths_head] at hx
        rcases List.mem_cons.mp hx with hx1 | hx2
        · exact Or.inl (by rw [allPaths_head]; exact hx1 ▸ List.mem_cons_self _ _)
        · rcases childPaths_aset_sub pat _ cs x hx2 with h2 | h2
          · exact Or.inl (by rw [allPaths_head]; exact List.mem_cons_of_mem _ h2)
          · rw [allPaths_head] at h2
            rcases List.mem_cons.mp h2 with h3 | h3
            · exact Or.inr h3
            · simp [childPaths] at h3

theorem insertAt_path (sps : List Str) : ∀ (n : SNode) (pat : Str) (m : PageMeta),
    (insertAt n sps pat m).path = n.path := by
  induction sps with
  | nil => intro n pat m; exact atFinal_path n pat m
  | cons sp rest ih =>
    intro n pat m
    match n with
    | .mk p t md cs =>
      simp only [insertAt]
      by_cases hsp : sp = p
      · rw [if_pos hsp]; exact ih _ pat m
      · rw [if_neg hsp]; rfl

theorem insertAt_keyInv (sps : List Str) : ∀ (n : SNode) (pat : Str) (m : PageMeta),
    n.keyInv → (insertAt n sps pat m).keyInv := by
  induction sps with
  | nil => intro n pat m h; exact atFinal_keyInv n pat m h
  | cons sp rest ih =>
    intro n pat m h
    match n with
    | .mk p t md cs =>
      rw [keyInv_mk] at h
      simp only [insertAt]
      by_cases hsp : sp = p
      · rw [if_pos hsp]; exact ih _ pat m (by rw [keyInv_mk]; exact h)
      · rw [if_neg hsp]
        rw [keyInv_mk]
        match hl : alookup sp cs with
        | some c =>
          obtain ⟨hc1, hc2⟩ := alookup_keyInv sp c cs h hl
          simp only [hl, Option.getD_some]
          refine kidsKeyInv_aset sp _ cs h ?_ ?_
          · rw [insertAt_path]; exact hc1
          · exact ih c pat m hc2
        | none =>
          simp only [hl, Option.getD_none]
          refine kidsKeyInv_aset sp _ cs h ?_ ?_
          · rw [insertAt_path]; rfl
          · exact ih _ pat m (by rw [keyInv_mk]; trivial)

theorem insertAt_mem (sps : List Str) : ∀ (n : SNode) (pat : Str) (m : PageMeta),
    pat ∈ (insertAt n sps pat m).allPaths := by
  induction sps with
  | nil => intro n pat m; exact atFinal_mem n pat m
  | cons sp rest ih =>
    intro n pat m
    match n with
    | .mk p t md cs =>
      simp only [insertAt]
      by_cases hsp : sp = p
      · rw [if_pos hsp]; exact ih _ pat m
      · rw [if_neg hsp]
        rw [allPaths_head]
        refine List.mem_cons_of_mem _ ?_
        exact mem_childPaths_aset sp _ cs pat (ih _ pat m)

theorem insertAt_sup (sps : List Str) : ∀ (n : SNode) (pat : Str) (m : PageMeta),
    n.keyInv → ∀ x ∈ n.allPaths, x ∈ (insertAt n sps pat m).allPaths := by
  induction sps with
  | nil => intro n pat m h; exact atFinal_sup n pat m h
  | cons sp rest ih =>
    intro n pat m h x hx
    match n with
    | .mk p t md cs =>
      rw [keyInv_mk] at h
      rw [allPaths_head] at hx
      simp only [insertAt]
      by_cases hsp : sp = p
      · rw [if_pos hsp]
        exact ih _ pat m (by rw [keyInv_mk]; exact h) x (by rw [allPaths_head]; exact hx)
      · rw [if_neg hsp]
        rw [allPaths_head]
        rcases List.mem_cons.mp hx with hx1 | hx2
        · exact hx1 ▸ List.mem_cons_self _ _
        · refine List.mem_cons_of_mem _ ?_
          match hl : alookup sp cs with
          | some c =>
            obtain ⟨hc1, hc2⟩ := alookup_keyInv sp c cs h hl
            simp only [hl, Option.getD_some]
            refine childPaths_aset_sup sp _ c cs hl ?_ x hx2
            intro y hy
            exact ih c pat m hc2 y hy
          | none =>
            simp only [hl, Option.getD_none]
            exact childPaths_aset_sup_none sp _ cs hl x hx2

theorem insertAt_sub (sps : List Str) : ∀ (n : SNode) (pat : Str) (m : PageMeta),
    ∀ x ∈ (insertAt n sps pat m).allPaths,
      x ∈ n.allPaths ∨ x ∈ sps ∨ x = pat := by
  induction sps with
  | nil =>
    intro n pat m x hx
    rcases atFinal_sub n pat m x hx with h | h
    · exact Or.inl h
    · exact Or.inr (Or.inr h)
  | cons sp rest ih =>
    intro n pat m x hx
    match n with
    | .mk p t md cs =>
      simp only [insertAt] at hx
      by_cases hsp : sp = p
      · rw [if_pos hsp] at hx
        rcases ih _ pat m x hx with h | h | h
        · exact Or.inl h
        · exact Or.inr (Or.inl (List.mem_cons_of_mem _ h))
        · exact Or.inr (Or.inr h)
      · rw [if_neg hsp] at hx
        rw [allPaths_head] at hx
        rcases List.mem_cons.mp hx with hx1 | hx2
        · exact Or.inl (by rw [allPaths_head]; exact hx1 ▸ List.mem_cons_self _ _)
        · rcases childPaths_aset_sub sp _ cs x hx2 with h2 | h2
          · exact Or.inl (by rw [allPaths_head]; exact List.mem_cons_of_mem _ h2)
          · match hl : alookup sp cs with
            | some c =>
              rw [hl] at h2
              simp only [Option.getD_some] at h2
              rcases ih c pat m x h2 with h3 | h3 | h3
              · refine Or.inl ?_
                rw [allPaths_head]
                exact List.mem_cons_of_mem _ (alookup_allPaths_sub sp c cs hl x h3)
              · exact Or.inr (Or.inl (List.mem_cons_of_mem _ h3))
              · exact Or.inr (Or.inr h3)
            | none =>
              rw [hl] at h2
              simp only [Option.getD_none] at h2
              rcases ih _ pat m x h2 with h3 | h3 | h3
              · rw [allPaths_head] at h3
                rcases List.mem_cons.mp h3 with h4 | h4
                · exact Or.inr (Or.inl (h4 ▸ List.mem_cons_self _ _))
                · simp [childPaths] at h4
              · exact Or.inr (Or.inl (List.mem_cons_of_mem _ h3))
              · exact Or.inr (Or.inr h3)

theorem foldPages_keyInv (pfx : Str) (pages : List (Str × Str × PageMeta)) :
    ∀ root : SNode, root.keyInv → (pages.foldl (pageStep pfx) root).keyInv := by
  induction pages with
  | nil => intro root h; exact h
  | cons pg rest ih =>
    intro root h
    rw [List.foldl_cons]
    refine ih _ ?_
    rw [pageStep]
    by_cases hs : skipPage pg.2.2
    · rw [if_pos hs]; exact h
    · rw [if_neg hs]; exact insertAt_keyInv _ root pg.2.1 pg.2.2 h

theorem foldPages_sup (pfx : Str) (pages : List (Str × Str × PageMeta)) :
    ∀ root : SNode, root.keyInv →
      ∀ x ∈ root.allPaths, x ∈ (pages.foldl (pageStep pfx) root).allPaths := by
  induction pages with
  | nil => intro root _ x hx; exact hx
  | cons pg rest ih =>
    intro root h x hx
    rw [List.foldl_cons]
    refine ih _ ?_ x ?_
    · rw [pageStep]
      by_cases hs : skipPage pg.2.2
      · rw [if_pos hs]; exact h
      · rw [if_neg hs]; exact insertAt_keyInv _ root pg.2.1 pg.2.2 h
    · rw [pageStep]
      by_cases hs : skipPage pg.2.2
      · rw [if_pos hs]; exact hx
      · rw [if_neg hs]; exact insertAt_sup _ root pg.2.1 pg.2.2 h x hx

theorem foldPages_mem (pfx : Str) (pages : List (Str × Str × PageMeta)) :
    ∀ root : SNode, root.keyInv →
      ∀ pg ∈ pages, skipPage pg.2.2 = false →
        pg.2.1 ∈ (pages.foldl (pageStep pfx) root).allPaths := by
  induction pages with
  | nil => intro root _ pg hpg; simp at hpg
  | cons pg0 rest ih =>
    intro root h pg hpg hskip
    rw [List.foldl_cons]
    rcases List.mem_cons.mp hpg with heq | hmem
    · subst heq
      have hroot2 : (pageStep pfx root pg).keyInv := by
        rw [pageStep, if_neg (by rw [hskip]; exact Bool.false_ne_true)]
        exact insertAt_keyInv _ root pg.2.1 pg.2.2 h
      refine foldPages_sup pfx rest _ hroot2 _ ?_
      rw [pageStep, if_neg (by rw [hskip]; exact Bool.false_ne_true)]
      exact insertAt_mem _ root pg.2.1 pg.2.2
    · refine ih _ ?_ pg hmem hskip
      rw [pageStep]
      by_cases hs : skipPage pg0.2.2
      · rw [if_pos hs]; exact h
      · rw [if_neg hs]; exact insertAt_keyInv _ root pg0.2.1 pg0.2.2 h

theorem foldPages_sub (pfx : Str) (pages : List (Str × Str × PageMeta)) :
    ∀ root : SNode, ∀ x ∈ (pages.foldl (pageStep pfx) root).allPaths,
      x ∈ root.allPaths
      ∨ ∃ pg ∈ pages, skipPage pg.2.2 = false
          ∧ (x ∈ subpathsOf pfx pg.1 ∨ x = pg.2.1) := by
  induction pages with
  | nil => intro root x hx; exact Or.inl hx
  | cons pg0 rest ih =>
    intro root x hx
    rw [List.foldl_cons] at hx
    rcases ih _ x hx with h | ⟨pg, hpg, hskip, hor⟩
    · rw [pageStep] at h
      by_cases hs : skipPage pg0.2.2
      · rw [if_pos hs] at h; exact Or.inl h
      · rw [if_neg hs] at h
        rcases insertAt_sub _ root pg0.2.1 pg0.2.2 x h with h2 | h2 | h2
        · exact Or.inl h2
        · exact Or.inr ⟨pg0, List.mem_cons_self _ _,
            Bool.of_not_eq_true hs, Or.inl h2⟩
        · exact Or.inr ⟨pg0, List.mem_cons_self _ _,
            Bool.of_not_eq_true hs, Or.inr h2⟩
    · exact Or.inr ⟨pg, List.mem_cons_of_mem _ hpg, hskip, hor⟩

/-- Claim C1, amended: a page whose response metadata marks it deleted or
carries a status of at least 300 never has its own entry inserted by
get_tree: the built tree contains no node at its url pattern, provided that
pattern is not the tree root and is not required by some other, non skipped
page as one of its ancestor subpaths or as its own pattern.  Every page
without such a response block is inserted normally: the tree contains a node
at its pattern.  (The original claim, without the proviso about other pages,
fails: see the counterexample.) -/
theorem getTree_exclusion (pfx0 human : Str) (pages : List (Str × Str × PageMeta)) :
    (∀ pg ∈ pages, skipPage pg.2.2 = false →
        treeHasPath (getTree pfx0 human pages).2 pg.2.1)
    ∧ (∀ pg ∈ pages, skipPage pg.2.2 = true →
        pg.2.1 ≠ (getTree pfx0 human pages).1 →
        (∀ pg2 ∈ pages, skipPage pg2.2.2 = false →
            pg.2.1 ∉ subpathsOf (getTree pfx0 human pages).1 pg2.1
            ∧ pg.2.1 ≠ pg2.2.1) →
        ¬ treeHasPath (getTree pfx0 human pages).2 pg.2.1) := by
  simp only [getTree]
  constructor
  · intro pg hpg hskip
    unfold treeHasPath
    refine foldPages_mem _ pages _ ?_ pg hpg hskip
    rw [keyInv_mk]
    trivial
  · intro pg hpg hskip hne hothers hcontra
    unfold treeHasPath at hcontra
    rcases foldPages_sub _ pages _ pg.2.1 hcontra with h | ⟨pg2, hpg2, hskip2, hor⟩
    · rw [allPaths_head] at h
      rcases List.mem_cons.mp h with h2 | h2
      · exact hne h2
      · simp [childPaths] at h2
    · rcases hor with h2 | h2
      · exact (hothers pg2 hpg2 hskip2).1 h2
      · exact (hothers pg2 hpg2 hskip2).2 h2

/-- Claim C1, counterexample: a page marked deleted at pattern /foo is
skipped, yet the built tree still contains a node at /foo, because a second
live page at /foo/bar forces a placeholder ancestor at that very path. -/
theorem getTree_exclusion_counterexample :
    skipPage (PageMeta.mk (strL "T1") (strL "M1")
        (some (RespMeta.mk (some true) none))) = true
    ∧ treeHasPath
        (getTree (strL "/") (strL "H")
          [(strL "/", strL "/foo",
            PageMeta.mk (strL "T1") (strL "M1") (some (RespMeta.mk (some true) none))),
           (strL "/foo", strL "/foo/bar",
            PageMeta.mk (strL "T2") (strL "M2") none)]).2
        (strL "/foo") := by decide

/-- Witness for the amended claim C1: with a deleted page at /gone and a live
page at /foo, the tree omits /gone and contains /foo. -/
theorem getTree_exclusion_witness :
    (¬ treeHasPath
        (getTree (strL "/") (strL "H")
          [(strL "/", strL "/gone",
            PageMeta.mk (strL "T1") (strL "M1") (some (RespMeta.mk (some true) none))),
           (strL "/", strL "/foo",
            PageMeta.mk (strL "T2") (strL "M2") none)]).2
        (strL "/gone"))
    ∧ treeHasPath
        (getTree (strL "/") (strL "H")
          [(strL "/", strL "/gone",
            PageMeta.mk (strL "T1") (strL "M1") (some (RespMeta.mk (some true) none))),
           (strL "/", strL "/foo",
            PageMeta.mk (strL "T2") (strL "M2") none)]).2
        (strL "/foo") := by
  constructor
  · exact (getTree_exclusion (strL "/") (strL "H") _).2
      (strL "/", strL "/gone",
        PageMeta.mk (strL "T1") (strL "M1") (some (RespMeta.mk (some true) none)))
      (by decide) (by decide) (by decide) (by decide)
  · exact (getTree_exclusion (strL "/") (strL "H") _).1
      (strL "/", strL "/foo", PageMeta.mk (strL "T2") (strL "M2") none)
      (by decide) (by decide)

/-- Regression example mirroring the repository test for get_tree: pages
index, foo and baz/index under prefix / produce a root keyed / whose children
are keyed by the empty pattern, /foo and /baz. -/
example :
    getTree (strL "/") (strL "The test site of testiness")
      [(strL "//", strL "", PageMeta.mk (strL "This is the index") (strL "m1") none),
       (strL "//", strL "/foo", PageMeta.mk (strL "Another foo page") (strL "m2") none),
       (strL "//", strL "/baz", PageMeta.mk (strL "Baz Page") (strL "m3") none)]
    = (strL "/",
       SNode.mk (strL "/") (some (strL "The test site of testiness")) none
         [(strL "", SNode.mk (strL "") (some (strL "This is the index")) (some (strL "m1")) []),
          (strL "/foo", SNode.mk (strL "/foo") (some (strL "Another foo page")) (some (strL "m2")) []),
          (strL "/baz", SNode.mk (strL "/baz") (some (strL "Baz Page")) (some (strL "m3")) [])]) := by
  rfl

/-! Embedding of the linker closure in arxiv/marxdown/render.py
get_linker. -/

/-- The pass-through test at the top of the linker: empty href, protocol
separator anywhere, absolute path, fragment-only link, or mailto link. -/
def passThru (href : Str) : Bool :=
  href.isEmpty || containsSub (strL "://") href || startsWithL (strL "/") href
    || startsWithL (strL "#") href || startsWithL (strL "mailto:") href

/-- Embedding of the linker: returns the route name, the optional route
parameter name, the optional resolved target path and the optional anchor. -/
def linker (siteName pagePath href : Str) :
    Str × Option Str × Option Str × Option Str :=
  if passThru href then (href, none, none, none)
  else
    let ha := if containsSub (strL "#") href
              then match splitOnce (strL "#") href with
                   | some pq => (pq.1, some pq.2)
                   | none => (href, none)
              else (href, none)
    let prk :=
      if endsWithL (strL ".md") ha.1 then
        (ha.1.take (ha.1.length - 3), strL ".from_sitemap", strL "page_path")
      else if ¬ ((splitChar '/' ha.1).getLastD []).contains '.' then
        (ha.1, strL ".from_sitemap", strL "page_path")
      else
        (ha.1, strL ".static", strL "filename")
    let basePath := joinSlash (splitChar '/' pagePath).dropLast
    let targetPath := lstripSlash (basePath ++ '/' :: rstripSlash prk.1)
    (siteName ++ prk.2.1, some prk.2.2, some targetPath, ha.2)

example : linker (strL "name") (strL "a/b") (strL "to/somewhere.md")
    = (strL "name.from_sitemap", some (strL "page_path"),
       some (strL "a/to/somewhere"), none) := by decide

example : linker (strL "name") (strL "a/b") (strL "mailto:help@arxiv.org")
    = (strL "mailto:help@arxiv.org", none, none, none) := by decide

example : linker (strL "name") (strL "a/b") (strL "img/x.png")
    = (strL "name.static", some (strL "filename"),
       some (strL "a/img/x.png"), none) := by decide

example : linker (strL "name") (strL "a/b") (strL "other")
    = (strL "name.from_sitemap", some (strL "page_path"),
       some (strL "a/other"), none) := by decide

example : linker (strL "name") (strL "a/b") (strL "doc.md#sec")
    = (strL "name.from_sitemap", some (strL "page_path"),
       some (strL "a/doc"), some (strL "sec")) := by decide

/-- A character that occurs in a string makes the single character split
succeed. -/
theorem splitOnce_isSome_of_mem (c : Char) (s : Str) (h : c ∈ s) :
    (splitOnce [c] s).isSome = true := by
  induction s with
  | nil => simp at h
  | cons x xs ih =>
    rw [splitOnce]
    by_cases hx : [c].isPrefixOf (x :: xs) = true
    · rw [if_pos hx]; rfl
    · rw [if_neg hx]
      have hxc : x ≠ c := by
        intro hxc
        exact hx (by simp [List.isPrefixOf, hxc])
      have hmem : c ∈ xs := by
        rcases List.mem_cons.mp h with h1 | h1
        · exact absurd h1.symm hxc
        · exact h1
      have := ih hmem
      match hsp : splitOnce [c] xs with
      | some pq => rfl
      | none => rw [hsp] at this; simp at this

/-- Absence under the python containment test means real absence. -/
theorem not_mem_of_containsSub_false (c : Char) (s : Str)
    (h : containsSub [c] s = false) : c ∉ s := by
  intro hmem
  have := splitOnce_isSome_of_mem c s hmem
  rw [containsSub] at h
  rw [h] at this
  simp at this

/-- A list is a Boolean suffix of anything it ends. -/
theorem isSuffixOf_append_self (l s : Str) : l.isSuffixOf (s ++ l) = true := by
  rw [List.isSuffixOf]
  have : (s ++ l).reverse = l.reverse ++ s.reverse := by simp
  rw [this]
  exact isPrefixOf_append_self l.reverse s.reverse

/-- Claim C5: an href that is empty, contains a protocol separator, starts
with a slash, starts with a hash or starts with mailto: is returned untouched
as the tuple of the raw href and three none values, and no other href ever
yields a tuple whose last three components are all none (the route parameter
name is always filled in). -/
theorem linker_pass_through (siteName pagePath href : Str) :
    (passThru href = true →
       linker siteName pagePath href = (href, none, none, none))
    ∧ (passThru href = false →
       ¬ ((linker siteName pagePath href).2.1 = none
          ∧ (linker siteName pagePath href).2.2.1 = none
          ∧ (linker siteName pagePath href).2.2.2 = none)) := by
  constructor
  · intro hp
    rw [linker, if_pos hp]
  · intro hp hcontra
    rw [linker, if_neg (by rw [hp]; exact Bool.false_ne_true)] at hcontra
    simp at hcontra

/-- Witness for claim C5: a mailto link passes through untouched while a
relative markdown link gets a filled route parameter. -/
theorem linker_pass_through_witness :
    linker (strL "name") (strL "a/b") (strL "mailto:x@y")
      = (strL "mailto:x@y", none, none, none)
    ∧ ¬ ((linker (strL "name") (strL "a/b") (strL "x.md")).2.1 = none
         ∧ (linker (strL "name") (strL "a/b") (strL "x.md")).2.2.1 = none
         ∧ (linker (strL "name") (strL "a/b") (strL "x.md")).2.2.2 = none) :=
  ⟨(linker_pass_through (strL "name") (strL "a/b") (strL "mailto:x@y")).1 (by decide),
   (linker_pass_through (strL "name") (strL "a/b") (strL "x.md")).2 (by decide)⟩

/-- Claim C6: a relative href ending in the markdown extension, after
splitting off any fragment, is classified as an internal page reference
whose resolved target is the href with the extension stripped, joined onto
the directory of the referencing page (all segments but the last), with a
trailing slash stripped before and leading slashes stripped after the
join. -/
theorem linker_md_reference (siteName pagePath : Str) :
    ∀ href stem, passThru href = false →
      ((href = stem ++ strL ".md" → containsSub (strL "#") href = false →
          linker siteName pagePath href
            = (siteName ++ strL ".from_sitemap", some (strL "page_path"),
               some (lstripSlash (joinSlash (splitChar '/' pagePath).dropLast
                     ++ '/' :: rstripSlash stem)), none))
       ∧ (∀ frag, href = (stem ++ strL ".md") ++ '#' :: frag →
            containsSub (strL "#") (stem ++ strL ".md") = false →
            linker siteName pagePath href
              = (siteName ++ strL ".from_sitemap", some (strL "page_path"),
                 some (lstripSlash (joinSlash (splitChar '/' pagePath).dropLast
                       ++ '/' :: rstripSlash stem)), some frag))) := by
  intro href stem hp
  have hsfx : endsWithL (strL ".md") (stem ++ strL ".md") = true := by
    rw [endsWithL]; exact isSuffixOf_append_self _ _
  have htake : (stem ++ strL ".md").take ((stem ++ strL ".md").length - 3) = stem := by
    have hlen : (stem ++ strL ".md").length = stem.length + 3 := by
      rw [List.length_append]; rfl
    rw [hlen]
    simpa using List.take_left stem (strL ".md")
  constructor
  · intro heq hnf
    subst heq
    rw [linker, if_neg (by rw [hp]; exact Bool.false_ne_true)]
    simp only [hnf, Bool.false_eq_true, if_false, hsfx, if_true, htake]
  · intro frag heq hnf
    have hhash : containsSub (strL "#") href = true := by
      rw [heq, containsSub]
      have : strL "#" = ['#'] := rfl
      rw [this, splitOnce_char '#' (stem ++ strL ".md") frag
        (not_mem_of_containsSub_false '#' _ hnf)]
      rfl
    have hsplit : splitOnce (strL "#") href = some (stem ++ strL ".md", frag) := by
      rw [heq]
      have : strL "#" = ['#'] := rfl
      rw [this]
      exact splitOnce_char '#' (stem ++ strL ".md") frag
        (not_mem_of_containsSub_false '#' _ hnf)
    subst heq
    rw [linker, if_neg (by rw [hp]; exact Bool.false_ne_true)]
    simp only [hhash, if_true, hsplit, hsfx, htake]

/-- Witness for claim C6: the markdown link to/somewhere.md on the page a/b
resolves to the page reference a/to/somewhere. -/
theorem linker_md_reference_witness :
    linker (strL "name") (strL "a/b") (strL "to/somewhere.md")
      = (strL "name.from_sitemap", some (strL "page_path"),
         some (strL "a/to/somewhere"), none) := by
  have h := (linker_md_reference (strL "name") (strL "a/b")
      (strL "to/somewhere.md") (strL "to/somewhere") (by decide)).1
      (by decide) (by decide)
  rw [h]
  decide

/-- Claim C10: whenever the linker produces an internal target path, that
path never begins with a slash, because the join result has its leading
slashes stripped. -/
theorem linker_target_no_slash (siteName pagePath href : Str) :
    ∀ t, (linker siteName pagePath href).2.2.1 = some t →
      startsWithL (strL "/") t = false := by
  intro t ht
  rw [linker] at ht
  by_cases hp : passThru href = true
  · rw [if_pos hp] at ht
    simp at ht
  · rw [if_neg hp] at ht
    simp only [Option.some.injEq] at ht
    rw [← ht]
    exact startsWith_slash_lstrip _

/-- Witness for claim C10: the linker at top level page b resolves x.md to
the target x, which carries no leading slash. -/
theorem linker_target_no_slash_witness :
    (linker (strL "n") (strL "b") (strL "x.md")).2.2.1 = some (strL "x")
    ∧ startsWithL (strL "/") (strL "x") = false :=
  ⟨by decide,
   linker_target_no_slash (strL "n") (strL "b") (strL "x.md") (strL "x") (by decide)⟩

/-! Embedding of the arxiv/sitemap package: the node type of domain.py, the
merge and path rewrite of build.py, the iteration and XML serialization of
serialize.py and the decoding hook of load.py. -/

/-- A sitemap URL node: the python dict with optional title, a path, an
optional modified timestamp, an optional changefreq and children.
Timestamps are modelled by their ISO strings, which the external ISO8601
encoder and decoder round-trip losslessly.  The oid field models python
object identity: a function that returns its own (mutated) argument
preserves it. -/
inductive Url where
  | mk (oid : Nat) (title : Option Str) (path : Str) (modified : Option Str)
       (changefreq : Option Str) (children : List (Str × Url))

def Url.oidOf : Url → Nat
  | .mk i _ _ _ _ _ => i

def Url.titleOf : Url → Option Str
  | .mk _ t _ _ _ _ => t

def Url.pathOf : Url → Str
  | .mk _ _ p _ _ _ => p

def Url.modifiedOf : Url → Option Str
  | .mk _ _ _ m _ _ => m

def Url.changefreqOf : Url → Option Str
  | .mk _ _ _ _ cf _ => cf

def Url.childrenOf : Url → List (Str × Url)
  | .mk _ _ _ _ _ cs => cs

mutual
/-- Embedding of build._paths_to_urls: prepend the server origin to the path
of every node and to every child key.  The python function assigns into the
dict it was given and returns that same dict, so the embedding preserves the
object identity oid of every node while changing its path. -/
def paths_to_urls (server : Str) : Url → Url
  | .mk i t p m cf cs => .mk i t (server ++ p) m cf (p2uKids server cs)
/-- The children part of paths_to_urls: prepends the origin to each key. -/
def p2uKids (server : Str) : List (Str × Url) → List (Str × Url)
  | [] => []
  | kv :: rest => (server ++ kv.1, paths_to_urls server kv.2) :: p2uKids server rest
end

/-- Python dict.update of the mapping a with the entries of b, in order. -/
def dictUpdate (a b : List (Str × Url)) : List (Str × Url) :=
  b.foldl (fun acc kv => aset kv.1 kv.2 acc) a

/-- The merge loop of build.do_create_site_map over already built site
trees: each input tree is rewritten with its server origin when one is
given, then merged into the accumulated tree by dict update. -/
def mergeTrees (inputs : List (Option Str × List (Str × Url))) : List (Str × Url) :=
  inputs.foldl
    (fun tree inp =>
      dictUpdate tree
        (match inp.1 with
         | some server =>
           inp.2.map (fun kv => (server ++ kv.1, paths_to_urls server kv.2))
         | none => inp.2))
    []

mutual
/-- All path fields reachable in a url node. -/
def Url.allPaths : Url → List Str
  | .mk _ _ p _ _ cs => p :: kidsPaths cs
/-- All path fields reachable under a url children list. -/
def kidsPaths : List (Str × Url) → List Str
  | [] => []
  | kv :: rest => kv.2.allPaths ++ kidsPaths rest
end

mutual
/-- All child keys reachable in a url node. -/
def Url.allKeys : Url → List Str
  | .mk _ _ _ _ _ cs => kidsKeys cs
/-- All keys of a url children list, including nested ones. -/
def kidsKeys : List (Str × Url) → List Str
  | [] => []
  | kv :: rest => kv.1 :: (kv.2.allKeys ++ kidsKeys rest)
end

mutual
/-- All nodes of a url tree, the node itself first, depth first. -/
def Url.allNodes : Url → List Url
  | .mk i t p m cf cs => .mk i t p m cf cs :: kidsNodes cs
/-- All nodes under a url children list, depth first. -/
def kidsNodes : List (Str × Url) → List Url
  | [] => []
  | kv :: rest => kv.2.allNodes ++ kidsNodes rest
end

/-- The path fields of every node of a urlset. -/
def urlsetPaths (us : List (Str × Url)) : List Str :=
  us.flatMap (fun kv => kv.2.allPaths)

/-- Every key of a urlset: its top level keys and every nested child key. -/
def urlsetKeys (us : List (Str × Url)) : List Str :=
  us.map (fun kv => kv.1) ++ us.flatMap (fun kv => kv.2.allKeys)

/-- Embedding of serialize.iter_urls: yield the node of each entry and then,
recursively, the nodes under its children, in order. -/
def iter_urls : List (Str × Url) → List Url
  | [] => []
  | (_, .mk i t p m cf cs) :: rest =>
    .mk i t p m cf cs :: (iter_urls cs ++ iter_urls rest)

/-- An element of the generated XML document: tag, optional text and child
elements. -/
inductive XmlElem where
  | mk (tag : Str) (text : Option Str) (children : List XmlElem)

def XmlElem.tagOf : XmlElem → Str
  | .mk t _ _ => t

def XmlElem.textOf : XmlElem → Option Str
  | .mk _ x _ => x

/-- Embedding of serialize.loc: a loc element carrying the path of the
node. -/
def locElem (u : Url) : XmlElem := .mk (strL "loc") (some u.pathOf) []

/-- Embedding of serialize.lastmod for a node whose modified value is
present: the iso string of the timestamp. -/
def lastmodElem (m : Str) : XmlElem := .mk (strL "lastmod") (some m) []

/-- Embedding of serialize.changefreq: the changefreq of the node, or
monthly when none is given. -/
def changefreqElem (u : Url) : XmlElem :=
  .mk (strL "changefreq") (some (u.changefreqOf.getD (strL "monthly"))) []

/-- Embedding of serialize.url_xml: always a loc child, a lastmod child only
when the modified key is present (the KeyError of the missing key is caught
and ignored), and always a changefreq child. -/
def url_xml (u : Url) : XmlElem :=
  .mk (strL "url") none
    ([locElem u]
     ++ (match u.modifiedOf with
         | some m => [lastmodElem m]
         | none => [])
     ++ [changefreqElem u])

/-- A JSON value as far as the sitemap document format needs: strings and
objects with insertion-ordered fields. -/
inductive Jval where
  | jstr (s : Str)
  | jobj (fields : List (Str × Jval))

/-- An optional scalar field of the serialized node dict: present exactly
when the value is present. -/
def optField (k : Str) : Option Str → List (Str × Jval)
  | some v => [(k, Jval.jstr v)]
  | none => []

mutual
/-- Serialization of a url node into the sitemap JSON document shape: the
fields the builder put into the dict, with children as a nested object keyed
by child paths. -/
def urlJson : Url → Jval
  | .mk _ t p m cf cs =>
    .jobj (optField (strL "title") t
      ++ [(strL "path", Jval.jstr p)]
      ++ optField (strL "modified") m
      ++ optField (strL "changefreq") cf
      ++ [(strL "children", Jval.jobj (kidsJson cs))])
/-- Serialization of a children mapping. -/
def kidsJson : List (Str × Url) → List (Str × Jval)
  | [] => []
  | kv :: rest => (kv.1, urlJson kv.2) :: kidsJson rest
end

/-- Serialization of a whole urlset: the top level object keyed by path. -/
def urlsetJson (us : List (Str × Url)) : Jval := .jobj (kidsJson us)

/-- Embedding of the body of URLDecoder.object_hook for one key-value pair:
a string value under the key path without a protocol separator gets the url
root prepended; everything else is left alone.  When the value under the key
path is not a string the python code tests containment against a dict and
stringifies it; that case never arises for serialized urlsets (the theorems
below exclude a child keyed by the literal word path) and is embedded as the
identity. -/
def hookPair (root : Str) (kv : Str × Jval) : Str × Jval :=
  if kv.1 = strL "path" then
    match kv.2 with
    | .jstr s =>
      if containsSub (strL "://") s then kv else (kv.1, Jval.jstr (root ++ s))
    | v => (kv.1, v)
  else kv

mutual
/-- The json decoder applies the object hook to every decoded object, from
the innermost out, which is this bottom-up traversal. -/
def applyHook (root : Str) : Jval → Jval
  | .jstr s => .jstr s
  | .jobj fs => .jobj (hookKids root fs)
/-- Bottom-up hook application over the fields of one object. -/
def hookKids (root : Str) : List (Str × Jval) → List (Str × Jval)
  | [] => []
  | kv :: rest => hookPair root (kv.1, applyHook root kv.2) :: hookKids root rest
end

/-- Embedding of load.load_urlset on an already parsed document: the decoder
strips trailing slashes from the url root once, then the hook runs on every
object. -/
def load_urlset (root : Str) (doc : Jval) : Jval := applyHook (rstripSlash root) doc

mutual
/-- The specified effect of deserialization on a node: the path gets the
root prepended exactly once unless it carries a protocol separator, and
nothing else changes. -/
def rewritePaths (root : Str) : Url → Url
  | .mk i t p m cf cs =>
    .mk i t (if containsSub (strL "://") p then p else root ++ p) m cf
      (rwKids root cs)
/-- The specified effect of deserialization on a children mapping: values
rewritten, keys untouched. -/
def rwKids (root : Str) : List (Str × Url) → List (Str × Url)
  | [] => []
  | kv :: rest => (kv.1, rewritePaths root kv.2) :: rwKids root rest
end

mutual
/-- No child key anywhere in the node equals the literal word path; true of
every urlset the builder produces, whose keys are url patterns. -/
def Url.goodKeys : Url → Bool
  | .mk _ _ _ _ _ cs => kidsGoodKeys cs
/-- Key soundness of a children mapping. -/
def kidsGoodKeys : List (Str × Url) → Bool
  | [] => true
  | kv :: rest => decide (kv.1 ≠ strL "path") && kv.2.goodKeys && kidsGoodKeys rest
end

/-! Claim C3: the server origin rewrite and the merge. -/

mutual
theorem allPaths_p2u (S : Str) : ∀ u : Url,
    (paths_to_urls S u).allPaths = u.allPaths.map (fun p => S ++ p)
  | .mk i t p m cf cs => by
    rw [paths_to_urls, Url.allPaths, Url.allPaths, kidsPaths_p2u S cs]
    simp
theorem kidsPaths_p2u (S : Str) : ∀ cs : List (Str × Url),
    kidsPaths (p2uKids S cs) = (kidsPaths cs).map (fun p => S ++ p)
  | [] => by rw [p2uKids, kidsPaths]; rfl
  | kv :: rest => by
    rw [p2uKids, kidsPaths, kidsPaths, allPaths_p2u S kv.2, kidsPaths_p2u S rest]
    simp
end

mutual
theorem allKeys_p2u (S : Str) : ∀ u : Url,
    (paths_to_urls S u).allKeys = u.allKeys.map (fun p => S ++ p)
  | .mk i t p m cf cs => by
    rw [paths_to_urls, Url.allKeys, Url.allKeys, kidsKeys_p2u S cs]
theorem kidsKeys_p2u (S : Str) : ∀ cs : List (Str × Url),
    kidsKeys (p2uKids S cs) = (kidsKeys cs).map (fun p => S ++ p)
  | [] => by rw [p2uKids, kidsKeys]; rfl
  | kv :: rest => by
    rw [p2uKids, kidsKeys, kidsKeys, allKeys_p2u S kv.2, kidsKeys_p2u S rest]
    simp
end

theorem alookup_append {α : Type} (k : Str) (a b : List (Str × α))
    (h : alookup k a = none) : alookup k (a ++ b) = alookup k b := by
  induction a with
  | nil => rfl
  | cons kv rest ih =>
    rw [alookup] at h
    by_cases hk : kv.1 = k
    · rw [if_pos hk] at h; exact absurd h (by simp)
    · rw [if_neg hk] at h
      rw [List.cons_append, alookup, if_neg hk]
      exact ih h

theorem dictUpdate_fresh : ∀ (b a : List (Str × Url)),
    (∀ kv ∈ b, alookup kv.1 a = none) →
    (b.map (fun kv => kv.1)).Nodup →
    dictUpdate a b = a ++ b := by
  intro b
  induction b with
  | nil => intro a _ _; simp [dictUpdate]
  | cons kv rest ih =>
    intro a hfresh hnd
    have hstep : dictUpdate a (kv :: rest) = dictUpdate (aset kv.1 kv.2 a) rest := by
      rw [dictUpdate, List.foldl_cons]; rfl
    rw [hstep, aset_of_lookup_none kv.1 kv.2 a (hfresh kv (List.mem_cons_self _ _))]
    rw [List.map_cons, List.nodup_cons] at hnd
    have hfresh2 : ∀ kv2 ∈ rest, alookup kv2.1 (a ++ [(kv.1, kv.2)]) = none := by
      intro kv2 hkv2
      rw [alookup_append kv2.1 a _ (hfresh kv2 (List.mem_cons_of_mem _ hkv2))]
      have hne : kv.1 ≠ kv2.1 := by
        intro hcontra
        exact hnd.1 (hcontra ▸ List.mem_map_of_mem (fun kv => kv.1) hkv2)
      rw [alookup, if_neg hne]
      rfl
    rw [ih (a ++ [(kv.1, kv.2)]) hfresh2 hnd.2]
    simp

theorem urlsetPaths_map_p2u (S : Str) (T : List (Str × Url)) :
    urlsetPaths (T.map (fun kv => (S ++ kv.1, paths_to_urls S kv.2)))
      = (urlsetPaths T).map (fun p => S ++ p) := by
  induction T with
  | nil => rfl
  | cons kv rest ih =>
    simp only [urlsetPaths, List.map_cons, List.flatMap_cons] at ih ⊢
    rw [allPaths_p2u S kv.2, ih]
    simp

theorem flatKeys_map_p2u (S : Str) (T : List (Str × Url)) :
    (T.map (fun kv => (S ++ kv.1, paths_to_urls S kv.2))).flatMap
        (fun kv => kv.2.allKeys)
      = (T.flatMap (fun kv => kv.2.allKeys)).map (fun p => S ++ p) := by
  induction T with
  | nil => rfl
  | cons kv rest ih =>
    simp only [List.map_cons, List.flatMap_cons, ih, allKeys_p2u, List.map_append]

theorem urlsetKeys_map_p2u (S : Str) (T : List (Str × Url)) :
    urlsetKeys (T.map (fun kv => (S ++ kv.1, paths_to_urls S kv.2)))
      = (urlsetKeys T).map (fun p => S ++ p) := by
  rw [urlsetKeys, urlsetKeys, flatKeys_map_p2u, List.map_append, List.map_map,
    List.map_map]
  rfl

/-- The merge of one tree is the dict update of the empty dict with its
(possibly rewritten) entries. -/
theorem mergeTrees_single (inp : Option Str × List (Str × Url)) :
    mergeTrees [inp] = dictUpdate []
      (match inp.1 with
       | some server =>
         inp.2.map (fun kv => (server ++ kv.1, paths_to_urls server kv.2))
       | none => inp.2) := by
  rfl

/-- Claim C3: merging a tree given with a server origin rewrites every node
path and every key (the top level ones included) to the origin prepended
exactly once to the original value, and a tree given without a server origin
comes out of the merge unchanged.  The python dict keys of a tree are
distinct, which the two nodup hypotheses record. -/
theorem mergeTrees_origin (S : Str) (T U : List (Str × Url))
    (hT : (T.map (fun kv => kv.1)).Nodup)
    (hU : (U.map (fun kv => kv.1)).Nodup) :
    urlsetPaths (mergeTrees [(some S, T)]) = (urlsetPaths T).map (fun p => S ++ p)
    ∧ urlsetKeys (mergeTrees [(some S, T)]) = (urlsetKeys T).map (fun p => S ++ p)
    ∧ mergeTrees [(none, U)] = U := by
  have hinj : Function.Injective (fun p : Str => S ++ p) := by
    intro a b hab
    exact List.append_cancel_left hab
  have hndT : ((T.map (fun kv => (S ++ kv.1, paths_to_urls S kv.2))).map
      (fun kv => kv.1)).Nodup := by
    rw [List.map_map]
    have : ((fun kv : Str × Url => kv.1) ∘
        (fun kv : Str × Url => (S ++ kv.1, paths_to_urls S kv.2)))
        = (fun p : Str => S ++ p) ∘ (fun kv : Str × Url => kv.1) := rfl
    rw [this, ← List.map_map]
    exact hT.map hinj
  have hsome : mergeTrees [(some S, T)]
      = T.map (fun kv => (S ++ kv.1, paths_to_urls S kv.2)) := by
    rw [mergeTrees_single]
    have := dictUpdate_fresh (T.map (fun kv => (S ++ kv.1, paths_to_urls S kv.2))) []
      (fun kv _ => rfl) hndT
    simpa using this
  have hnone : mergeTrees [(none, U)] = U := by
    rw [mergeTrees_single]
    have := dictUpdate_fresh U [] (fun kv _ => rfl) hU
    simpa using this
  refine ⟨?_, ?_, hnone⟩
  · rw [hsome, urlsetPaths_map_p2u]
  · rw [hsome, urlsetKeys_map_p2u]

/-- Witness for claim C3 on a two node tree with a nested child and a one
node tree merged without an origin. -/
theorem mergeTrees_origin_witness :
    urlsetPaths (mergeTrees [(some (strL "https://s"),
        [(strL "/h", Url.mk 1 (some (strL "T")) (strL "/h") none none
            [(strL "/h/x", Url.mk 2 none (strL "/h/x") none none [])])])])
      = (urlsetPaths
          [(strL "/h", Url.mk 1 (some (strL "T")) (strL "/h") none none
              [(strL "/h/x", Url.mk 2 none (strL "/h/x") none none [])])]).map
          (fun p => strL "https://s" ++ p)
    ∧ urlsetKeys (mergeTrees [(some (strL "https://s"),
        [(strL "/h", Url.mk 1 (some (strL "T")) (strL "/h") none none
            [(strL "/h/x", Url.mk 2 none (strL "/h/x") none none [])])])])
      = (urlsetKeys
          [(strL "/h", Url.mk 1 (some (strL "T")) (strL "/h") none none
              [(strL "/h/x", Url.mk 2 none (strL "/h/x") none none [])])]).map
          (fun p => strL "https://s" ++ p)
    ∧ mergeTrees [(none, [(strL "/c", Url.mk 3 none (strL "/c") none none [])])]
      = [(strL "/c", Url.mk 3 none (strL "/c") none none [])] :=
  mergeTrees_origin (strL "https://s")
    [(strL "/h", Url.mk 1 (some (strL "T")) (strL "/h") none none
        [(strL "/h/x", Url.mk 2 none (strL "/h/x") none none [])])]
    [(strL "/c", Url.mk 3 none (strL "/c") none none [])]
    (by decide) (by decide)

/-! Claim C9: the merger mutates its input; serialization does not. -/

mutual
theorem allNodes_oids_p2u (S : Str) : ∀ u : Url,
    (paths_to_urls S u).allNodes.map Url.oidOf = u.allNodes.map Url.oidOf
  | .mk i t p m cf cs => by
    rw [paths_to_urls, Url.allNodes, Url.allNodes]
    simp only [List.map_cons, Url.oidOf]
    rw [kidsNodes_oids_p2u S cs]
theorem kidsNodes_oids_p2u (S : Str) : ∀ cs : List (Str × Url),
    (kidsNodes (p2uKids S cs)).map Url.oidOf = (kidsNodes cs).map Url.oidOf
  | [] => by rw [p2uKids]
  | kv :: rest => by
    rw [p2uKids, kidsNodes, kidsNodes]
    simp only [List.map_append]
    rw [allNodes_oids_p2u S kv.2, kidsNodes_oids_p2u S rest]
end

theorem iter_urls_eq_nodes : ∀ us : List (Str × Url), iter_urls us = kidsNodes us
  | [] => by rw [iter_urls, kidsNodes]
  | (k, .mk i t p m cf cs) :: rest => by
    rw [iter_urls, kidsNodes, Url.allNodes,
      iter_urls_eq_nodes cs, iter_urls_eq_nodes rest]
    simp

/-- Claim C9, counterexample: the path rewrite of the merger returns the very
object it was given (the preserved oid models python object identity) with a
different path value: after the call the original input node no longer holds
its original path, so the merger does mutate its input tree. -/
theorem paths_to_urls_mutates :
    (paths_to_urls (strL "https://s") (Url.mk 7 none (strL "/a") none none [])).oidOf
      = (Url.mk 7 none (strL "/a") none none []).oidOf
    ∧ (paths_to_urls (strL "https://s") (Url.mk 7 none (strL "/a") none none [])).pathOf
      ≠ (Url.mk 7 none (strL "/a") none none []).pathOf := by
  decide

/-- Claim C9, amended: XML serialization iterates the urlset without
altering it, yielding exactly the nodes of the tree; the origin rewrite of
the merger, however, mutates its input in place: it returns the same object
graph (every object identity is preserved) with every node path rewritten to
carry the origin prefix. -/
theorem merger_serializer_effects (S : Str) (u : Url) (us : List (Str × Url)) :
    iter_urls us = kidsNodes us
    ∧ (paths_to_urls S u).oidOf = u.oidOf
    ∧ (paths_to_urls S u).allNodes.map Url.oidOf = u.allNodes.map Url.oidOf
    ∧ (paths_to_urls S u).allPaths = u.allPaths.map (fun p => S ++ p) := by
  refine ⟨iter_urls_eq_nodes us, ?_, allNodes_oids_p2u S u, allPaths_p2u S u⟩
  match u with
  | .mk i t p m cf cs => rw [paths_to_urls, Url.oidOf, Url.oidOf]

/-! Claim C8: the XML shape of one serialized url. -/

def XmlElem.childrenOf : XmlElem → List XmlElem
  | .mk _ _ cs => cs

/-- Claim C8: the url element always contains a loc child with the path of
the node, contains a lastmod child exactly when the node has a modified
value (and then with that iso timestamp as text), and always contains a
changefreq child whose text is the changefreq of the node or monthly when
none is given. -/
theorem url_xml_shape (u : Url) :
    XmlElem.mk (strL "loc") (some u.pathOf) [] ∈ (url_xml u).childrenOf
    ∧ (∀ ms, u.modifiedOf = some ms →
        XmlElem.mk (strL "lastmod") (some ms) [] ∈ (url_xml u).childrenOf)
    ∧ (u.modifiedOf = none →
        ∀ e ∈ (url_xml u).childrenOf, e.tagOf ≠ strL "lastmod")
    ∧ XmlElem.mk (strL "changefreq")
        (some (u.changefreqOf.getD (strL "monthly"))) []
        ∈ (url_xml u).childrenOf := by
  match hm : u.modifiedOf with
  | some ms0 =>
    refine ⟨?_, ?_, ?_, ?_⟩
    · simp [url_xml, XmlElem.childrenOf, hm, locElem]
    · intro ms hms
      injection hms with hms
      subst hms
      simp [url_xml, XmlElem.childrenOf, hm, lastmodElem]
    · intro hcontra
      exact absurd hcontra (by simp)
    · simp [url_xml, XmlElem.childrenOf, hm, changefreqElem]
  | none =>
    refine ⟨?_, ?_, ?_, ?_⟩
    · simp [url_xml, XmlElem.childrenOf, hm, locElem]
    · intro ms hms
      exact absurd hms (by simp)
    · intro _ e he
      simp [url_xml, XmlElem.childrenOf, hm, locElem, changefreqElem] at he
      rcases he with he | he <;>
        (subst he; simp only [XmlElem.tagOf]; decide)
    · simp [url_xml, XmlElem.childrenOf, hm, changefreqElem]

/-- Witness for claim C8 at a node with a path, no modified value and no
changefreq: lastmod is absent and changefreq falls back to monthly. -/
theorem url_xml_shape_witness :
    XmlElem.mk (strL "loc") (some (strL "/foo")) []
      ∈ (url_xml (Url.mk 1 none (strL "/foo") none none [])).childrenOf
    ∧ (∀ e ∈ (url_xml (Url.mk 1 none (strL "/foo") none none [])).childrenOf,
        e.tagOf ≠ strL "lastmod")
    ∧ XmlElem.mk (strL "changefreq") (some (strL "monthly")) []
      ∈ (url_xml (Url.mk 1 none (strL "/foo") none none [])).childrenOf := by
  have h := url_xml_shape (Url.mk 1 none (strL "/foo") none none [])
  refine ⟨h.1, h.2.2.1 (by decide), ?_⟩
  have h4 := h.2.2.2
  simpa [Url.changefreqOf] using h4

/-! Claim C4: deserialization prefixes every path exactly once and touches
nothing else. -/

theorem hookKids_append (r : Str) (a b : List (Str × Jval)) :
    hookKids r (a ++ b) = hookKids r a ++ hookKids r b := by
  induction a with
  | nil => rw [hookKids, List.nil_append, List.nil_append]
  | cons kv rest ih =>
    rw [List.cons_append, hookKids, hookKids, ih, List.cons_append]

theorem hookPair_neutral (r : Str) (k : Str) (v : Jval) (hk : k ≠ strL "path") :
    hookPair r (k, v) = (k, v) := by
  rw [hookPair, if_neg hk]

theorem hookKids_optField (r k : Str) (o : Option Str) (hk : k ≠ strL "path") :
    hookKids r (optField k o) = optField k o := by
  match o with
  | none => rw [optField, hookKids]
  | some v =>
    rw [optField, hookKids, hookKids, applyHook, hookPair_neutral r k _ hk]

theorem hookPair_path (r p : Str) :
    hookPair r (strL "path", Jval.jstr p)
      = (strL "path", Jval.jstr (if containsSub (strL "://") p = true then p
                                 else r ++ p)) := by
  rw [hookPair, if_pos rfl]
  by_cases h : containsSub (strL "://") p = true
  · simp [h]
  · simp [h]

mutual
theorem applyHook_urlJson (r : Str) : ∀ u : Url, u.goodKeys = true →
    applyHook r (urlJson u) = urlJson (rewritePaths r u)
  | .mk i t p m cf cs, h => by
    rw [Url.goodKeys] at h
    rw [urlJson, applyHook, rewritePaths, urlJson]
    rw [hookKids_append, hookKids_append, hookKids_append, hookKids_append]
    rw [hookKids_optField r _ t (by decide), hookKids_optField r _ m (by decide),
      hookKids_optField r _ cf (by decide)]
    rw [hookKids, hookKids, applyHook, hookPair_path]
    rw [hookKids, hookKids, applyHook, hookKids_kidsJson r cs h,
      hookPair_neutral r (strL "children") (Jval.jobj (kidsJson (rwKids r cs)))
        (by decide)]
theorem hookKids_kidsJson (r : Str) : ∀ cs : List (Str × Url),
    kidsGoodKeys cs = true → hookKids r (kidsJson cs) = kidsJson (rwKids r cs)
  | [], _ => by rw [kidsJson, hookKids, rwKids, kidsJson]
  | kv :: rest, h => by
    rw [kidsGoodKeys] at h
    simp only [Bool.and_eq_true, decide_eq_true_eq] at h
    rw [kidsJson, hookKids, rwKids, kidsJson]
    rw [applyHook_urlJson r kv.2 h.1.2, hookPair_neutral r _ _ h.1.1,
      hookKids_kidsJson r rest h.2]
end

/-- Claim C4: deserializing a serialized urlset with a url root yields the
very same document in which every node path that carries no protocol
separator has the root (trailing slashes stripped) prepended exactly once,
while every other field and every mapping key is unchanged; the hypothesis
records that no child key is the literal word path, which is true of every
urlset the builder emits (its keys are url patterns). -/
theorem load_urlset_roundtrip (root : Str) (us : List (Str × Url))
    (h : kidsGoodKeys us = true) :
    load_urlset root (urlsetJson us)
      = urlsetJson (rwKids (rstripSlash root) us) := by
  rw [load_urlset, urlsetJson, applyHook, hookKids_kidsJson _ us h, urlsetJson]

/-- Witness for claim C4 on a two level urlset under an https root with a
trailing slash; the rewritten form is also evaluated explicitly. -/
theorem load_urlset_roundtrip_witness :
    load_urlset (strL "https://a.org/")
        (urlsetJson
          [(strL "/help", Url.mk 1 (some (strL "T")) (strL "/help")
              (some (strL "2019-01-04T22:05:42")) none
              [(strL "/help/x", Url.mk 2 none (strL "/help/x") none none [])])])
      = urlsetJson (rwKids (rstripSlash (strL "https://a.org/"))
          [(strL "/help", Url.mk 1 (some (strL "T")) (strL "/help")
              (some (strL "2019-01-04T22:05:42")) none
              [(strL "/help/x", Url.mk 2 none (strL "/help/x") none none [])])])
    ∧ rwKids (rstripSlash (strL "https://a.org/"))
          [(strL "/help", Url.mk 1 (some (strL "T")) (strL "/help")
              (some (strL "2019-01-04T22:05:42")) none
              [(strL "/help/x", Url.mk 2 none (strL "/help/x") none none [])])]
      = [(strL "/help", Url.mk 1 (some (strL "T")) (strL "https://a.org/help")
            (some (strL "2019-01-04T22:05:42")) none
            [(strL "/help/x", Url.mk 2 none (strL "https://a.org/help/x")
                none none [])])] :=
  ⟨load_urlset_roundtrip (strL "https://a.org/") _ (by decide), by rfl⟩

/-! Claim C7: site spec validation in build.py. -/

/-- A site spec record; every field may be missing from the JSON mapping.
The url-prefix field of the source is called urlPfx here. -/
structure SiteSpec where
  name : Option Str
  repo : Option Str
  source_dir : Option Str
  source_ref : Option Str
  human_name : Option Str
  urlPfx : Option Str
  server : Option Str

/-- A character the name check accepts: ascii letters and the underscore,
the complement of the character class in the regular expression of
build._validate_spec. -/
def nameOkChar (c : Char) : Bool :=
  ('a' ≤ c && c ≤ 'z') || ('A' ≤ c && c ≤ 'Z') || c = '_'

/-- Embedding of build._validate_spec, check for check in source order.  The
name check searches for any character outside the allowed class, so an empty
name passes it. -/
def validate_spec (s : SiteSpec) : Except Str Unit :=
  match s.name with
  | none => .error (strL "missing name")
  | some nm =>
    if nm.any (fun c => ! nameOkChar c) then
      .error (strL "name must contain only allowed characters")
    else match s.repo with
      | none => .error (strL "missing repo")
      | some rp =>
        if ! rp.contains ':' || ! containsSub (strL ".git") rp
            || ! containsSub (strL "git@") rp then
          .error (strL "that does not look like a git repo")
        else match s.source_dir with
          | none => .error (strL "missing source_dir")
          | some _ => match s.source_ref with
            | none => .error (strL "source_ref must be a tag or branch")
            | some _ => match s.human_name with
              | none => .error (strL "missing human_name")
              | some _ => match s.urlPfx with
                | none => .error (strL "missing url prefix")
                | some _ => match s.server with
                  | none => .ok ()
                  | some sv =>
                    if containsSub (strL "://") sv then .ok ()
                    else .error (strL "server should have protocol")

/-- The validation loop at the top of do_create_site_map: every spec is
checked, and the first failure aborts the whole run. -/
def validateAll : List SiteSpec → Except Str Unit
  | [] => .ok ()
  | s :: rest =>
    match validate_spec s with
    | .error e => .error e
    | .ok _ => validateAll rest

/-- The externally visible actions of do_create_site_map, in order. -/
inductive BuildEvent where
  | retrieved (name : Str)
  | built (name : Str)
deriving DecidableEq

/-- Embedding of build.do_create_site_map over already loaded specs, with
the site tree each spec would build supplied as data: validate every spec up
front, and only then clone, build and merge each site.  The first component
traces the retrieve and build actions that were performed. -/
def doCreateSiteMap (sites : List (SiteSpec × List (Str × Url))) :
    List BuildEvent × Except Str (List (Str × Url)) :=
  match validateAll (sites.map (fun sp => sp.1)) with
  | .error e => ([], .error e)
  | .ok _ =>
    (sites.flatMap (fun sp =>
       [BuildEvent.retrieved (sp.1.name.getD []), BuildEvent.built (sp.1.name.getD [])]),
     .ok (sites.foldl (fun tree sp =>
        dictUpdate tree
          (match sp.1.server with
           | some server =>
             sp.2.map (fun kv => (server ++ kv.1, paths_to_urls server kv.2))
           | none => sp.2)) []))

/-- The name requirement the original claim states: at least one character,
all from the allowed class. -/
def nameMatchesPlus (nm : Str) : Prop := nm ≠ [] ∧ ∀ c ∈ nm, nameOkChar c = true

instance (nm : Str) : Decidable (nameMatchesPlus nm) := by
  unfold nameMatchesPlus; infer_instance

/-- Claim C7, counterexample: a spec whose name is the empty string passes
validation although the empty string does not match the one-or-more
character class of the claim; the check only searches for a forbidden
character and finds none in an empty name. -/
theorem validate_spec_counterexample :
    validate_spec (SiteSpec.mk (some []) (some (strL "git@h:a.git"))
        (some (strL "d")) (some (strL "r")) (some (strL "h"))
        (some (strL "/p")) none) = .ok ()
    ∧ ¬ nameMatchesPlus [] := by
  constructor
  · rfl
  · intro hcontra
    exact hcontra.1 rfl

/-- A single invalid spec makes the whole validation loop fail. -/
theorem validateAll_error : ∀ l : List SiteSpec,
    (∃ sp ∈ l, validate_spec sp ≠ .ok ()) → ∃ e, validateAll l = .error e := by
  intro l
  induction l with
  | nil => rintro ⟨sp, hsp, -⟩; simp at hsp
  | cons s rest ih =>
    rintro ⟨sp, hsp, hne⟩
    match hv : validate_spec s with
    | .error e => exact ⟨e, by rw [validateAll, hv]⟩
    | .ok u =>
      rcases List.mem_cons.mp hsp with heq | hmem
      · subst heq
        exact absurd (by rw [hv]) hne
      · obtain ⟨e, he⟩ := ih ⟨sp, hmem, hne⟩
        exact ⟨e, by rw [validateAll, hv, he]⟩

/-- Claim C7, amended: validation accepts a spec exactly when every required
field is present, the name contains no character outside letters and
underscore (the empty name is accepted, unlike the one-or-more matching the
original claim states), the repo looks like a git url (a colon, a .git and a
git@ part) and a server value, when present, carries a protocol separator;
and when any spec of a run is invalid the whole run fails before any
repository is retrieved or any site is built. -/
theorem validate_spec_correct (s : SiteSpec)
    (sites : List (SiteSpec × List (Str × Url))) :
    (validate_spec s = .ok () ↔
       ((∃ nm, s.name = some nm ∧ ∀ c ∈ nm, nameOkChar c = true)
        ∧ (∃ rp, s.repo = some rp ∧ rp.contains ':' = true
             ∧ containsSub (strL ".git") rp = true
             ∧ containsSub (strL "git@") rp = true)
        ∧ s.source_dir ≠ none ∧ s.source_ref ≠ none ∧ s.human_name ≠ none
        ∧ s.urlPfx ≠ none
        ∧ (∀ sv, s.server = some sv → containsSub (strL "://") sv = true)))
    ∧ ((∃ sp ∈ sites, validate_spec sp.1 ≠ .ok ()) →
        (doCreateSiteMap sites).1 = []
        ∧ ∃ e, (doCreateSiteMap sites).2 = .error e) := by
  constructor
  · constructor
    · intro hok
      rcases hname : s.name with _ | nm
      · rw [validate_spec, hname] at hok; simp at hok
      · rw [validate_spec, hname] at hok
        simp only [] at hok
        by_cases hbad : (nm.any fun c => ! nameOkChar c) = true
        · rw [if_pos hbad] at hok; simp at hok
        · rw [if_neg hbad] at hok
          rcases hrepo : s.repo with _ | rp
          · rw [hrepo] at hok; simp at hok
          · rw [hrepo] at hok
            simp only [] at hok
            by_cases hgit : (! rp.contains ':' || ! containsSub (strL ".git") rp
                || ! containsSub (strL "git@") rp) = true
            · rw [if_pos hgit] at hok; simp at hok
            · rw [if_neg hgit] at hok
              rcases hsd : s.source_dir with _ | sd
              · rw [hsd] at hok; simp at hok
              · rw [hsd] at hok
                simp only [] at hok
                rcases hsr : s.source_ref with _ | sr
                · rw [hsr] at hok; simp at hok
                · rw [hsr] at hok
                  simp only [] at hok
                  rcases hhn : s.human_name with _ | hn
                  · rw [hhn] at hok; simp at hok
                  · rw [hhn] at hok
                    simp only [] at hok
                    rcases hup : s.urlPfx with _ | up
                    · rw [hup] at hok; simp at hok
                    · rw [hup] at hok
                      simp only [] at hok
                      have hnm : ∀ c ∈ nm, nameOkChar c = true := by
                        intro c hc
                        by_contra hcc
                        exact hbad (List.any_eq_true.mpr
                          ⟨c, hc, by simp [Bool.not_eq_true] at hcc ⊢; exact hcc⟩)
                      have hgit2 : (rp.contains ':' = true
                          ∧ containsSub (strL ".git") rp = true)
                          ∧ containsSub (strL "git@") rp = true := by
                        simpa using hgit
                      refine ⟨⟨nm, rfl, hnm⟩,
                        ⟨rp, rfl, hgit2.1.1, hgit2.1.2, hgit2.2⟩,
                        by simp, by simp, by simp, by simp, ?_⟩
                      intro sv hsv
                      rw [hsv] at hok
                      simp only [] at hok
                      by_cases hproto : containsSub (strL "://") sv = true
                      · exact hproto
                      · rw [if_neg hproto] at hok; simp at hok
    · rintro ⟨⟨nm, hname, hnm⟩, ⟨rp, hrepo, hc1, hc2, hc3⟩, hsd, hsr, hhn, hup, hsv⟩
      rw [validate_spec, hname]
      simp only []
      have hbad : (nm.any fun c => ! nameOkChar c) = false := by
        rw [List.any_eq_false]
        intro c hc
        simp [hnm c hc]
      rw [if_neg (by rw [hbad]; exact Bool.false_ne_true)]
      rw [hrepo]
      simp only []
      have hc1m : ':' ∈ rp := by simpa using hc1
      have hgit : (! rp.contains ':' || ! containsSub (strL ".git") rp
          || ! containsSub (strL "git@") rp) = false := by
        simp [hc1m, hc2, hc3]
      rw [if_neg (by rw [hgit]; exact Bool.false_ne_true)]
      rcases hsd2 : s.source_dir with _ | sd
      · exact absurd hsd2 hsd
      · simp only []
        rcases hsr2 : s.source_ref with _ | sr
        · exact absurd hsr2 hsr
        · simp only []
          rcases hhn2 : s.human_name with _ | hn
          · exact absurd hhn2 hhn
          · simp only []
            rcases hup2 : s.urlPfx with _ | up
            · exact absurd hup2 hup
            · simp only []
              rcases hsv2 : s.server with _ | sv
              · rfl
              · simp only []
                rw [if_pos (hsv sv hsv2)]
  · intro h
    obtain ⟨sp, hsp, hne⟩ := h
    obtain ⟨e, he⟩ := validateAll_error (sites.map (fun sp => sp.1))
      ⟨sp.1, List.mem_map_of_mem _ hsp, hne⟩
    rw [doCreateSiteMap, he]
    exact ⟨rfl, e, rfl⟩

/-- Witness for the amended claim C7: a fully well formed spec is accepted,
and a run containing a spec with every field missing produces an error with
an empty action trace: nothing is retrieved or built. -/
theorem validate_spec_correct_witness :
    validate_spec (SiteSpec.mk (some (strL "help"))
        (some (strL "git@github.com:arXiv/arxiv-docs.git")) (some (strL "help"))
        (some (strL "develop")) (some (strL "arXiv Help")) (some (strL "/help"))
        none) = .ok ()
    ∧ (doCreateSiteMap
        [(SiteSpec.mk none none none none none none none, [])]).1 = []
    ∧ ∃ e, (doCreateSiteMap
        [(SiteSpec.mk none none none none none none none, [])]).2 = .error e := by
  have hbad : validate_spec (SiteSpec.mk none none none none none none none)
      ≠ .ok () := by
    intro hc
    simp [validate_spec] at hc
  have h2 := (validate_spec_correct (SiteSpec.mk none none none none none none none)
      [(SiteSpec.mk none none none none none none none, [])]).2
    ⟨(SiteSpec.mk none none none none none none none, []), by simp, hbad⟩
  refine ⟨?_, h2.1, h2.2⟩
  exact (validate_spec_correct (SiteSpec.mk (some (strL "help"))
      (some (strL "git@github.com:arXiv/arxiv-docs.git")) (some (strL "help"))
      (some (strL "develop")) (some (strL "arXiv Help")) (some (strL "/help"))
      none) []).1.mpr
    ⟨⟨strL "help", rfl, by decide⟩,
     ⟨strL "git@github.com:arXiv/arxiv-docs.git", rfl, by decide, by decide,
       by decide⟩,
     by simp, by simp, by simp, by simp, fun sv h => by simp at h⟩
